import Mathlib

/-!
# Cold-state migration and the epoch spans cache

A shallow embedding of `Store.MigrateToCold`
(`beacon-chain/db/kv/migrate.go`) and of `EpochSpansCache`
(`slasher/cache/span_cache.go`), together with the properties of both that
the design document states.

The Go method mutates a long-lived `Store` object and calls a number of
collaborators (block lookup, epoch-boundary cache, state regeneration,
persistent state bucket, state-summary buffer).  The embedding splits the
object into

* `Env`   : configuration and read-only collaborators, each a function that
            may fail;
* `Store` : the fields a migration can change, plus a chronological trace of
            the collaborator calls it made.

Slots are `uint64` in the source.  The loop counter is only incremented while
it is strictly below another `uint64`, so it never wraps and `Nat` is exact.
Roots are 32-byte arrays that are only ever compared for equality; they are
represented by natural numbers.  Both are written `Nat` throughout: a binder
named `slot` is a chain height, one named `root` a hash tree root.
-/

namespace Prysm

/-- The errors a migration can return.  `canceled` and `deadlineExceeded` are
the two values of `ctx.Err()`; `couldNotGetEpochBoundaryState` is the
`fmt.Errorf` of line 45; `unknownBlock` is the `errors.New` of line 66;
`other` stands for any error handed up unchanged from a collaborator. -/
inductive Err where
  | canceled
  | deadlineExceeded
  | couldNotGetEpochBoundaryState (slot : Nat)
  | unknownBlock
  | other (code : Nat)
  deriving DecidableEq, Repr

/-- How a call ends: `nil`, a returned error, or a Go run-time panic. -/
inductive Outcome where
  | ok
  | error (e : Err)
  | panic
  deriving DecidableEq, Repr

/-- A beacon state, reduced to its slot and an identifier of its content. -/
structure BeaconState where
  slot : Nat
  content : Nat
  deriving DecidableEq, Repr

/-- The deep copy `state.Copy()`: a fresh value with the same content. -/
def BeaconState.Copy (b : BeaconState) : BeaconState :=
  { slot := b.slot, content := b.content }

/-- A beacon block; only `Slot` is read by the migration. -/
structure BeaconBlock where
  Slot : Nat
  ParentRoot : Nat
  body : Nat
  deriving DecidableEq, Repr

/-- A signed block wrapping a `BeaconBlock` (`fBlock.Block.Slot`). -/
structure SignedBeaconBlock where
  Block : BeaconBlock
  deriving DecidableEq, Repr

/-- An entry of the epoch-boundary state cache. -/
structure rootStateInfo where
  root : Nat
  state : BeaconState
  deriving DecidableEq, Repr

/-- A buffered state summary. -/
structure StateSummary where
  root : Nat
  slot : Nat
  deriving DecidableEq, Repr

/-- The in-memory finalized-info snapshot (`s.finalizedInfo`); `state` is a
pointer in the source and may be nil. -/
structure FinalizedInfo where
  root : Nat
  state : Option BeaconState
  slot : Nat
  deriving DecidableEq, Repr

/-- The cancellation token: what `ctx.Err()` returns when it is read at the
start of the loop iteration for a given slot (`none` is Go's `nil`). -/
abbrev Context := Nat → Option Err

/-- One collaborator call made by a migration.  The calls made inside the slot
loop carry the loop's slot. -/
inductive Event where
  | getBySlot (slot : Nat)
  | highestSlotBlocksBelow (slot : Nat)
  | stateByRoot (slot : Nat) (root : Nat)
  | removeSavedStateRoot (slot : Nat) (root : Nat)
  | saveState (slot : Nat) (state : Option BeaconState) (root : Nat)
  | logSaved (stateSlot : Nat) (root : Nat)
  | saveStateSummaries (summaries : List StateSummary)
  | clearSummaries
  | getByRoot (root : Nat)
  deriving DecidableEq, Repr

/-- Modelled from the spec: the collaborators of `MigrateToCold`, none of which
is in the sources at hand.  Section 6 of the design document gives their
shapes: `getBlock(root)` fails when the block is absent, `hasState(root)`,
`getStateByRoot(root)` (deterministic regeneration), `saveState(state, root)`,
`saveStateSummaries(list)`, `highestSlotBlocksBelow(slot)`, and the cache
reads `getBySlot(slot)` and `getByRoot(root)`.  Reads are functions that may
fail; writes have a fault function saying whether the write fails.
`slotsPerArchivedPoint` is the archive interval configured on the store. -/
structure Env where
  slotsPerArchivedPoint : Nat
  Block : Nat → Except Err SignedBeaconBlock
  getBySlot : Nat → Except Err (Option rootStateInfo)
  getByRoot : Nat → Except Err (Option rootStateInfo)
  HighestSlotBlocksBelow : Nat → Except Err (List SignedBeaconBlock)
  HashTreeRoot : BeaconBlock → Except Err Nat
  hasStateErr : Nat → Option Err
  StateByRoot : Nat → Except Err BeaconState
  saveStateErr : BeaconState → Nat → Option Err
  saveStateSummariesErr : List StateSummary → Option Err

/-- The mutable part of the store: the finalized-info snapshot, the hot-state
retention list (`saveHotStateDB.savedStateRoots`), the state-summary buffer
(`stateSummaryCache`), the persisted states and summaries, and the trace of
collaborator calls. -/
structure Store where
  finalizedInfo : FinalizedInfo
  savedStateRoots : List Nat
  stateSummaryCache : List StateSummary
  states : List (Nat × BeaconState)
  stateSummaries : List StateSummary
  trace : List Event
  deriving DecidableEq, Repr

/-- Append one call to the trace. -/
def Store.log (s : Store) (e : Event) : Store :=
  { s with trace := s.trace ++ [e] }

/-- The roots that have a persisted state. -/
def Store.stateRoots (s : Store) : List Nat :=
  s.states.map Prod.fst

/-- Modelled from the spec: `hasState(root) -> bool` of the persistent store
contract, absent from the sources at hand.  It fails when the environment says
the read fails and otherwise tells whether a state is persisted under the
root. -/
def HasState (env : Env) (s : Store) (root : Nat) : Except Err Bool :=
  match env.hasStateErr root with
  | some e => .error e
  | none => .ok (decide (root ∈ s.stateRoots))

/-- Modelled from the spec: `saveState(state, root) -> Result<(), Error>` of the
persistent store contract, absent from the sources at hand.  A failed write
changes nothing; a successful one leaves exactly one persisted copy under the
root.  The contract takes a state; handed Go's nil pointer the call cannot
read it and is taken to panic. -/
def SaveState (env : Env) (s : Store) (state : Option BeaconState) (root : Nat) :
    Outcome × Store :=
  match state with
  | none => (.panic, s)
  | some st =>
    match env.saveStateErr st root with
    | some e => (.error e, s)
    | none =>
      (.ok, { s with states := (root, st) :: s.states.filter (fun p => p.1 ≠ root) })

/-- Modelled from the spec: `saveStateSummaries(list) -> Result<(), Error>` of
the persistent store contract, absent from the sources at hand.  A failed
flush changes nothing; a successful one makes every summary durable. -/
def SaveStateSummaries (env : Env) (s : Store) (summaries : List StateSummary) :
    Outcome × Store :=
  match env.saveStateSummariesErr summaries with
  | some e => (.error e, s)
  | none => (.ok, { s with stateSummaries := s.stateSummaries ++ summaries })

/-- Modelled from the spec: `stateSummaryBuffer.getAll()`, absent from the
sources at hand: every summary currently buffered. -/
def Store.getAll (s : Store) : List StateSummary :=
  s.stateSummaryCache

/-- Modelled from the spec: `stateSummaryBuffer.clear()`, absent from the
sources at hand: empties the buffer. -/
def Store.clear (s : Store) : Store :=
  { s with stateSummaryCache := [] }

/-- The scan of lines 95-102: starting at index `i`, with `n` indices left to
visit, find the first `roots[i]` equal to `aRoot`, splice it out with
`append(roots[:i], roots[i+1:]...)` and stop. -/
def removeSavedStateRootFrom (aRoot : Nat) (roots : List Nat) : Nat → Nat → List Nat
  | 0, _ => roots
  | n + 1, i =>
    if roots[i]? = some aRoot then roots.take i ++ roots.drop (i + 1)
    else removeSavedStateRootFrom aRoot roots n (i + 1)

/-- Lines 93-103: `for i := 0; i < len(roots); i++`, that is `len(roots)`
indices from 0. -/
def removeSavedStateRoot (aRoot : Nat) (roots : List Nat) : List Nat :=
  removeSavedStateRootFrom aRoot roots roots.length 0

/-- Lines 43-85: resolve the root and state of the archive point at `slot`:
from the epoch-boundary cache, or on a miss from the single highest-slot block
below `slot`, regenerating the state only if it is not persisted yet (the state
stays nil otherwise). -/
def resolveArchivedPoint (env : Env) (slot : Nat) (s : Store) :
    Except Err (Nat × Option BeaconState) × Store :=
  let s1 := s.log (.getBySlot slot)
  match env.getBySlot slot with
  | .error _ => (.error (.couldNotGetEpochBoundaryState slot), s1)
  | .ok (some cached) => (.ok (cached.root, some cached.state), s1)
  | .ok none =>
    let s2 := s1.log (.highestSlotBlocksBelow slot)
    match env.HighestSlotBlocksBelow slot with
    | .error e => (.error e, s2)
    | .ok [blk] =>
      match env.HashTreeRoot blk.Block with
      | .error e => (.error e, s2)
      | .ok missingRoot =>
        match HasState env s2 missingRoot with
        | .error e => (.error e, s2)
        | .ok true => (.ok (missingRoot, none), s2)
        | .ok false =>
          let s3 := s2.log (.stateByRoot slot missingRoot)
          match env.StateByRoot missingRoot with
          | .error e => (.error e, s3)
          | .ok st => (.ok (missingRoot, some st), s3)
    | .ok _ => (.error .unknownBlock, s2)

/-- Lines 43-114: the body of `if slot%s.slotsPerArchivedPoint == 0 && slot != 0`.
An archive point whose root is persisted is dropped from the hot-state
retention list; otherwise its state is saved and the save is logged. -/
def archivedPoint (env : Env) (slot : Nat) (s : Store) : Outcome × Store :=
  match resolveArchivedPoint env slot s with
  | (.error e, s1) => (.error e, s1)
  | (.ok (aRoot, aState), s1) =>
    match HasState env s1 aRoot with
    | .error e => (.error e, s1)
    | .ok true =>
      (.ok, { s1.log (.removeSavedStateRoot slot aRoot) with
                savedStateRoots := removeSavedStateRoot aRoot s1.savedStateRoots })
    | .ok false =>
      match SaveState env (s1.log (.saveState slot aState aRoot)) aState aRoot with
      | (.ok, s2) =>
        match aState with
        | none => (.panic, s2)
        | some st => (.ok, s2.log (.logSaved st.slot aRoot))
      | r => r

/-- Lines 38-115: one iteration of the slot loop.  `ctx.Err()` is read first;
the modulo panics on a zero archive interval. -/
def loopBody (env : Env) (ctx : Context) (slot : Nat) (s : Store) : Outcome × Store :=
  match ctx slot with
  | some e => (.error e, s)
  | none =>
    if env.slotsPerArchivedPoint = 0 then (.panic, s)
    else if slot % env.slotsPerArchivedPoint = 0 ∧ slot ≠ 0 then archivedPoint env slot s
    else (.ok, s)

/-- Line 37: `for slot := ...; slot < fSlot; slot++` with `n` iterations left,
the next one at `slot`.  An iteration that does not end normally ends the
call. -/
def migrateLoop (env : Env) (ctx : Context) : Nat → Nat → Store → Outcome × Store
  | 0, _, s => (.ok, s)
  | n + 1, slot, s =>
    match loopBody env ctx slot s with
    | (.ok, s1) => migrateLoop env ctx n (slot + 1) s1
    | r => r

/-- Lines 118-135: flush and clear the summary buffer, then refresh the
finalized-info snapshot from the epoch-boundary cache. -/
def finishMigration (env : Env) (fRoot : Nat) (fSlot : Nat) (s : Store) :
    Outcome × Store :=
  match SaveStateSummaries env (s.log (.saveStateSummaries s.getAll)) s.getAll with
  | (.ok, s1) =>
    let s2 := (s1.log .clearSummaries).clear
    let s3 := s2.log (.getByRoot fRoot)
    match env.getByRoot fRoot with
    | .error e => (.error e, s3)
    | .ok none => (.ok, s3)
    | .ok (some fInfo) =>
      (.ok, { s3 with finalizedInfo :=
                { root := fRoot, state := some fInfo.state.Copy, slot := fSlot } })
  | r => r

/-- `Store.MigrateToCold(ctx, fRoot)`.  The loop runs from `oldFSlot` while
`slot < fSlot`, that is `fSlot - oldFSlot` iterations. -/
def MigrateToCold (env : Env) (ctx : Context) (fRoot : Nat) (s : Store) :
    Outcome × Store :=
  let oldFSlot := s.finalizedInfo.slot
  match env.Block fRoot with
  | .error e => (.error e, s)
  | .ok fBlock =>
    let fSlot := fBlock.Block.Slot
    if oldFSlot > fSlot then (.ok, s)
    else
      match migrateLoop env ctx (fSlot - oldFSlot) oldFSlot s with
      | (.ok, s1) => finishMigration env fRoot fSlot s1
      | r => r

/-- An archive point: `slot mod archiveInterval == 0 and slot != 0`. -/
def isArchivedPoint (env : Env) (slot : Nat) : Prop :=
  slot % env.slotsPerArchivedPoint = 0 ∧ slot ≠ 0

instance (env : Env) (slot : Nat) : Decidable (isArchivedPoint env slot) := by
  unfold isArchivedPoint; infer_instance

/-- The root resolved for an archive point, as the design document words it:
the epoch-boundary cache entry's root, or on a cache miss the hash of the
unique highest-slot block below the slot.  There is none when a lookup fails
or the block is not unique. -/
def resolvedRoot (env : Env) (slot : Nat) : Option Nat :=
  match env.getBySlot slot with
  | .error _ => none
  | .ok (some cached) => some cached.root
  | .ok none =>
    match env.HighestSlotBlocksBelow slot with
    | .ok [blk] =>
      match env.HashTreeRoot blk.Block with
      | .ok root => some root
      | .error _ => none
    | _ => none

/-- A call made inside the slot loop for a slot in `[lo, hi)`.  The log line
carries no loop slot; the flush, the clear and the lookup by root are made
after the loop. -/
def Event.inLoop (lo hi : Nat) : Event → Prop
  | .getBySlot k => lo ≤ k ∧ k < hi
  | .highestSlotBlocksBelow k => lo ≤ k ∧ k < hi
  | .stateByRoot k _ => lo ≤ k ∧ k < hi
  | .removeSavedStateRoot k _ => lo ≤ k ∧ k < hi
  | .saveState k _ _ => lo ≤ k ∧ k < hi
  | .logSaved _ _ => True
  | .saveStateSummaries _ => False
  | .clearSummaries => False
  | .getByRoot _ => False

/-- What the slot loop may do to the store while it visits slots in
`[lo, hi)`: it leaves the snapshot, the summary buffer and the persisted
summaries alone, keeps every persisted state root, only ever drops roots from
the retention list, and extends the trace by calls of the loop. -/
structure LoopFrame (lo hi : Nat) (s t : Store) : Prop where
  finalizedInfo : t.finalizedInfo = s.finalizedInfo
  stateSummaryCache : t.stateSummaryCache = s.stateSummaryCache
  stateSummaries : t.stateSummaries = s.stateSummaries
  stateRoots : ∀ r, r ∈ s.stateRoots → r ∈ t.stateRoots
  savedStateRoots : t.savedStateRoots.Sublist s.savedStateRoots
  trace : ∃ evs, t.trace = s.trace ++ evs ∧ ∀ e ∈ evs, e.inLoop lo hi

/-- A sequence of migrations, one after the other on the same store,
whatever each of them returns; the collaborators may differ from one call to
the next. -/
def runMigrations : List (Env × Context × Nat) → Store → Store
  | [], s => s
  | (env, ctx, fRoot) :: rest, s => runMigrations rest (MigrateToCold env ctx fRoot s).2

/-- The store once the buffered summaries are flushed and the buffer is
cleared (lines 119-125, when the flush succeeds). -/
def Store.flushed (s : Store) (fRoot : Nat) : Store :=
  { s with stateSummaryCache := [],
           stateSummaries := s.stateSummaries ++ s.stateSummaryCache,
           trace := s.trace ++ [.saveStateSummaries s.stateSummaryCache,
             .clearSummaries, .getByRoot fRoot] }

/-! ## A small chain for concrete runs

Archive interval 2.  The block with root `r` sits at slot `r`.  The
epoch-boundary cache holds the state of every slot but slot 4 (root
`100 + slot`), and of the root 9 only.  Below slot 4 the database holds two
blocks, below any other slot one. -/

/-- The block of the small chain at a given slot. -/
def demoBlock (slot : Nat) : SignedBeaconBlock :=
  { Block := { Slot := slot, ParentRoot := 0, body := 0 } }

/-- The collaborators of the small chain. -/
def demoEnv : Env where
  slotsPerArchivedPoint := 2
  Block := fun r => .ok (demoBlock r)
  getBySlot := fun slot =>
    if slot = 4 then .ok none
    else .ok (some { root := 100 + slot, state := { slot := slot, content := 0 } })
  getByRoot := fun r =>
    if r = 9 then .ok (some { root := 9, state := { slot := 9, content := 5 } })
    else .ok none
  HighestSlotBlocksBelow := fun slot =>
    if slot = 4 then .ok [demoBlock 3, demoBlock 3] else .ok [demoBlock (slot - 1)]
  HashTreeRoot := fun b => .ok (200 + b.Slot)
  hasStateErr := fun _ => none
  StateByRoot := fun r => .ok { slot := r, content := 1 }
  saveStateErr := fun _ _ => none
  saveStateSummariesErr := fun _ => none

/-- The small chain with a persistent store that refuses every summary
flush. -/
def demoEnvFlushFails : Env :=
  { demoEnv with saveStateSummariesErr := fun _ => some (.other 7) }

/-- The small chain with an epoch-boundary cache whose lookup by slot
fails. -/
def demoEnvLookupFails : Env :=
  { demoEnv with getBySlot := fun _ => .error (.other 8) }

/-- A store of the small chain whose snapshot is at a given slot: two roots
in the retention list, one buffered summary, nothing persisted. -/
def demoStore (slot : Nat) : Store where
  finalizedInfo := { root := 0, state := none, slot := slot }
  savedStateRoots := [102, 7]
  stateSummaryCache := [{ root := 1, slot := 1 }]
  states := []
  stateSummaries := []
  trace := []

/-- A context that is never cancelled. -/
def background : Context := fun _ => none

/-- A context found cancelled at slot 3. -/
def cancelledAt3 : Context := fun slot => if slot = 3 then some .canceled else none

/-- The arguments of a `SaveState` call: the loop slot it was made for, the
state handed over and the root. -/
def Event.savedCall : Event → Option (Nat × Option BeaconState × Nat)
  | .saveState slot state root => some (slot, state, root)
  | _ => none

/-- The `SaveState` calls of a stretch of trace, in order. -/
def savedCalls (evs : List Event) : List (Nat × Option BeaconState × Nat) :=
  evs.filterMap Event.savedCall

/-- The roots `SaveState` was called with in a stretch of trace, in order. -/
def savedRoots (evs : List Event) : List Nat :=
  (savedCalls evs).map (fun c => c.2.2)

/-- Where the state saved for the archive point at `slot` comes from: the
epoch-boundary cache entry for the slot, or on a cache miss a successful
`StateByRoot` of the root. -/
def StateSource (env : Env) (slot root : Nat) (x : BeaconState) : Prop :=
  (∃ cached, env.getBySlot slot = .ok (some cached) ∧ cached.root = root ∧
      cached.state = x) ∨
    (env.getBySlot slot = .ok none ∧ env.StateByRoot root = .ok x)

/-- The loop slot a call was made for; the log line, the flush, the clear and
the lookup by root carry none. -/
def Event.loopSlot : Event → Option Nat
  | .getBySlot k => some k
  | .highestSlotBlocksBelow k => some k
  | .stateByRoot k _ => some k
  | .removeSavedStateRoot k _ => some k
  | .saveState k _ _ => some k
  | _ => none

/-- The number of iterations of the slot loop in a migration: `fSlot - oldFSlot`
when the finalized block is found and is ahead of the snapshot, none
otherwise. -/
def loopCount (env : Env) (fRoot : Nat) (s : Store) : Nat :=
  match env.Block fRoot with
  | .error _ => 0
  | .ok fBlock => fBlock.Block.Slot - s.finalizedInfo.slot

/-! ## The epoch spans cache

A shallow embedding of `slasher/cache/span_cache.go`.  The cache wraps the LRU
cache of the library `github.com/hashicorp/golang-lru`, whose keys and values
are Go `interface{}` values.  The package keeps its capacity in the
package-level variable `epochSpansCacheSize` and counts hits and misses in two
package-level counters; the embedding passes them around as a `Pkg` record. -/

/-- The dynamic type of an `interface{}` value used as a cache key: the builtin
`uint64`, or `basetypes.Epoch`, the type the package declares its keys with
(a defined type over `uint64` in `prysm-shared-types`, distinct from
`uint64`). -/
inductive KeyType where
  | uint64
  | Epoch
  deriving DecidableEq, Repr

/-- A cache key as the LRU library holds it: a dynamic type and a 64-bit
value. -/
structure Key where
  dyn : KeyType
  val : Nat
  deriving DecidableEq, Repr

/-- The conversion of a `basetypes.Epoch` argument to `interface{}`. -/
def Key.ofEpoch (epoch : Nat) : Key :=
  { dyn := .Epoch, val := epoch }

/-- The type assertion `key.(uint64)` on an `interface{}` value (`none` is the
nil interface): it yields the value when the dynamic type is `uint64` and
fails, with a run-time panic, otherwise. -/
def Key.assertUint64 : Option Key → Option Nat
  | some { dyn := .uint64, val := v } => some v
  | _ => none

/-- A `types.Span`, reduced to an identifier of its content. -/
structure Span where
  content : Nat
  deriving DecidableEq, Repr

/-- A Go value of type `map[basetypes.Epoch]types.Span`: the nil map, or an
allocated map with its entries. -/
inductive EpochSpans where
  | nilMap
  | made (entries : List (Nat × Span))
  deriving DecidableEq, Repr

/-- An entry of the LRU cache.  The value is an `interface{}` (`none` is the
nil interface).  `stamp` is not in the library: it records the value of the
cache's access clock when the entry was last added, updated or read. -/
structure Entry where
  key : Key
  value : Option EpochSpans
  stamp : Nat
  deriving DecidableEq, Repr

/-- Modelled from the spec: the bounded eviction cache of section 4.2, which the
source takes from the library `golang-lru`, absent from the sources at hand.
`size` is the capacity, `items` the entries from the most recently used to the
least recently used, `evicted` the calls made to the eviction callback, in
order, and `clock` the number of accesses so far. -/
structure LruCache where
  size : Int
  items : List Entry
  evicted : List (Key × Option EpochSpans)
  clock : Nat
  deriving DecidableEq, Repr

/-- The error of the LRU constructor. -/
inductive CacheErr where
  | mustProvidePositiveSize
  deriving DecidableEq, Repr

/-- Modelled from the spec: `lru.NewWithEvict(size, onEvicted)`, absent from the
sources at hand: an invalid capacity configuration fails fast, otherwise the
cache is empty. -/
def NewWithEvict (size : Int) : Except CacheErr LruCache :=
  if size ≤ 0 then .error .mustProvidePositiveSize
  else .ok { size := size, items := [], evicted := [], clock := 0 }

/-- Modelled from the spec: `Len()`, the current occupancy. -/
def LruCache.Len (c : LruCache) : Nat :=
  c.items.length

/-- Modelled from the spec: `Contains(key)`, a membership test that does not
alter the recency order. -/
def LruCache.Contains (c : LruCache) (k : Key) : Bool :=
  c.items.any (fun e => decide (e.key = k))

/-- Modelled from the spec: the eviction of the least recently used entry,
with the eviction callback invoked on its key and value. -/
def LruCache.removeOldest (c : LruCache) : LruCache × Option Entry :=
  match c.items.getLast? with
  | none => (c, none)
  | some e =>
    ({ c with items := c.items.dropLast, evicted := c.evicted ++ [(e.key, e.value)] },
      some e)

/-- Modelled from the spec: `RemoveOldest() (key, value, ok)`; on an empty cache
it returns nil, nil and false. -/
def LruCache.RemoveOldest (c : LruCache) :
    LruCache × Option Key × Option EpochSpans × Bool :=
  match c.removeOldest with
  | (c1, some e) => (c1, some e.key, e.value, true)
  | (c1, none) => (c1, none, none, false)

/-- Modelled from the spec: the move of the entry of key `k` to the front of
the recency order, as the entry `e1`; the access clock ticks. -/
def LruCache.moveToFront (c : LruCache) (e1 : Entry) (k : Key) : LruCache :=
  { c with items := e1 :: c.items.filter (fun e => decide (e.key ≠ k)),
           clock := c.clock + 1 }

/-- Modelled from the spec: the insertion of a new entry at the front of the
recency order; the access clock ticks. -/
def LruCache.pushFront (c : LruCache) (e1 : Entry) : LruCache :=
  { c with items := e1 :: c.items, clock := c.clock + 1 }

/-- Modelled from the spec: `Add(key, value)`, insert or update; the entry
becomes the most recently used, and if the insertion pushes the occupancy over
the capacity the least recently used entry is evicted.  The result tells
whether an eviction took place. -/
def LruCache.Add (c : LruCache) (k : Key) (v : Option EpochSpans) : LruCache × Bool :=
  if c.Contains k then
    (c.moveToFront { key := k, value := v, stamp := c.clock } k, false)
  else
    let c1 := c.pushFront { key := k, value := v, stamp := c.clock }
    if (c1.items.length : Int) > c1.size then ((c1.removeOldest).1, true) else (c1, false)

/-- Modelled from the spec: `Get(key) (value, ok)`; a hit makes the entry the
most recently used, a miss returns nil and false and changes nothing. -/
def LruCache.Get (c : LruCache) (k : Key) : LruCache × Option EpochSpans × Bool :=
  match c.items.find? (fun e => decide (e.key = k)) with
  | some e => (c.moveToFront { e with stamp := c.clock } k, e.value, true)
  | none => (c, none, false)

/-- Modelled from the spec: `Remove(key)`, explicit removal, invoking the
eviction callback if the key is present. -/
def LruCache.Remove (c : LruCache) (k : Key) : LruCache × Bool :=
  match c.items.find? (fun e => decide (e.key = k)) with
  | some e =>
    ({ c with items := c.items.filter (fun e => decide (e.key ≠ k)),
              evicted := c.evicted ++ [(e.key, e.value)] }, true)
  | none => (c, false)

/-- The package-level variables of `span_cache.go`: the capacity
`epochSpansCacheSize` and the two metric counters. -/
structure Pkg where
  epochSpansCacheSize : Int
  epochSpansCacheHit : Nat
  epochSpansCacheMiss : Nat
  deriving DecidableEq, Repr

/-- The package as initialised: `epochSpansCacheSize = 256`, counters at
zero. -/
def Pkg.init : Pkg :=
  { epochSpansCacheSize := 256, epochSpansCacheHit := 0, epochSpansCacheMiss := 0 }

/-- `EpochSpansCache`: a wrapper around one LRU cache. -/
structure EpochSpansCache where
  cache : LruCache
  deriving DecidableEq, Repr

/-- `NewEpochSpansCache(size, onEvicted)`: a non-zero `size` is stored in the
package-level `epochSpansCacheSize`, then the LRU cache is built with the
package-level value. -/
def NewEpochSpansCache (size : Int) (pkg : Pkg) : Except CacheErr EpochSpansCache × Pkg :=
  let pkg1 : Pkg := if size ≠ 0 then { pkg with epochSpansCacheSize := size } else pkg
  match NewWithEvict pkg1.epochSpansCacheSize with
  | .error err => (.error err, pkg1)
  | .ok cache => (.ok { cache := cache }, pkg1)

/-- `Get(epoch)`: a hit (the key exists and the item is not the nil interface)
counts a hit and returns the item; anything else counts a miss and returns a
freshly made empty map. -/
def EpochSpansCache.Get (c : EpochSpansCache) (epoch : Nat) (pkg : Pkg) :
    (EpochSpans × Bool) × EpochSpansCache × Pkg :=
  match c.cache.Get (Key.ofEpoch epoch) with
  | (cache1, some item, true) =>
    ((item, true), { cache := cache1 },
      { pkg with epochSpansCacheHit := pkg.epochSpansCacheHit + 1 })
  | (cache1, _, _) =>
    ((.made [], false), { cache := cache1 },
      { pkg with epochSpansCacheMiss := pkg.epochSpansCacheMiss + 1 })

/-- `Set(epoch, epochSpans)`: `_ = c.cache.Add(epoch, epochSpans)`. -/
def EpochSpansCache.Set (c : EpochSpansCache) (epoch : Nat) (epochSpans : EpochSpans) :
    EpochSpansCache :=
  { cache := (c.cache.Add (Key.ofEpoch epoch) (some epochSpans)).1 }

/-- `Delete(epoch)`: `c.cache.Remove(epoch)`. -/
def EpochSpansCache.Delete (c : EpochSpansCache) (epoch : Nat) : Bool × EpochSpansCache :=
  ((c.cache.Remove (Key.ofEpoch epoch)).2, { cache := (c.cache.Remove (Key.ofEpoch epoch)).1 })

/-- `Has(epoch)`: `c.cache.Contains(epoch)`. -/
def EpochSpansCache.Has (c : EpochSpansCache) (epoch : Nat) : Bool :=
  c.cache.Contains (Key.ofEpoch epoch)

/-- How `PruneOldest` ends: it returns a `uint64`, or panics on the type
assertion. -/
inductive Pruned where
  | returned (epoch : Nat)
  | panic
  deriving DecidableEq, Repr

/-- `PruneOldest()`: when the occupancy equals the package-level
`epochSpansCacheSize`, remove the oldest entry and return its key asserted to
`uint64`; otherwise return 0. -/
def EpochSpansCache.PruneOldest (c : EpochSpansCache) (pkg : Pkg) :
    Pruned × EpochSpansCache :=
  if (c.cache.Len : Int) = pkg.epochSpansCacheSize then
    match c.cache.RemoveOldest with
    | (cache1, epoch, _, _) =>
      match Key.assertUint64 epoch with
      | some v => (.returned v, { cache := cache1 })
      | none => (.panic, { cache := cache1 })
  else (.returned 0, c)

/-- A call of the public interface that reads or writes an entry. -/
inductive CacheOp where
  | set (epoch : Nat) (epochSpans : EpochSpans)
  | get (epoch : Nat)
  deriving DecidableEq, Repr

/-- The effect of one call on the cache and the package. -/
def CacheOp.apply : CacheOp → EpochSpansCache × Pkg → EpochSpansCache × Pkg
  | .set epoch epochSpans, (c, pkg) => (c.Set epoch epochSpans, pkg)
  | .get epoch, (c, pkg) => ((c.Get epoch pkg).2.1, (c.Get epoch pkg).2.2)

/-- A sequence of calls, one after the other. -/
def runOps (ops : List CacheOp) (st : EpochSpansCache × Pkg) : EpochSpansCache × Pkg :=
  ops.foldl (fun st op => op.apply st) st

/-- The epochs a sequence of calls hands to `Set`. -/
def setKeys : List CacheOp → List Nat
  | [] => []
  | .set epoch _ :: ops => epoch :: setKeys ops
  | .get _ :: ops => setKeys ops

/-- The map the last `Set` of a sequence of calls stored under an epoch, if
any. -/
def lastSet (epoch : Nat) : List CacheOp → Option EpochSpans
  | [] => none
  | .set e m :: ops =>
    match lastSet epoch ops with
    | some m2 => some m2
    | none => if e = epoch then some m else none
  | .get _ :: ops => lastSet epoch ops

/-- Some maps for concrete runs. -/
def demoSpans (n : Nat) : EpochSpans :=
  .made [(n, { content := n })]

/-- The effect of one call on the wrapped LRU cache. -/
def lruStep : CacheOp → LruCache → LruCache
  | .set epoch epochSpans, c => (c.Add (Key.ofEpoch epoch) (some epochSpans)).1
  | .get epoch, c => (c.Get (Key.ofEpoch epoch)).1

/-- The epochs held by an LRU cache, most recently used first. -/
def LruCache.epochs (c : LruCache) : List Nat :=
  c.items.map (fun e => e.key.val)

/-- What holds of an LRU cache built by `NewEpochSpansCache` and used through
`Set` and `Get`: no key occurs twice, the entries are in the order of their
last access, every key was stored as a `basetypes.Epoch`, every value is a
map, and the occupancy is within the positive capacity. -/
structure LruCache.WF (c : LruCache) : Prop where
  keys : c.epochs.Nodup
  recency : c.items.Pairwise (fun a b => b.stamp < a.stamp)
  stamps : ∀ e, e ∈ c.items → e.stamp < c.clock
  typed : ∀ e, e ∈ c.items → e.key.dyn = .Epoch
  values : ∀ e, e ∈ c.items → e.value ≠ none
  positive : 0 < c.size
  bounded : (c.items.length : Int) ≤ c.size

/-- A sequence of calls on the wrapped LRU cache. -/
def lruRun (ops : List CacheOp) (c : LruCache) : LruCache :=
  ops.foldl (fun c op => lruStep op c) c

/-- The cache `NewEpochSpansCache(2, cb)` returns. -/
def demoCache : EpochSpansCache :=
  { cache := { size := 2, items := [], evicted := [], clock := 0 } }

/-- The package after `NewEpochSpansCache(2, cb)` on the package as
initialised. -/
def demoPkg : Pkg :=
  { epochSpansCacheSize := 2, epochSpansCacheHit := 0, epochSpansCacheMiss := 0 }

/-- Epochs 1 and 2 are set, epoch 1 is set again, then epoch 3 is set. -/
def demoOps : List CacheOp :=
  [.set 1 (demoSpans 1), .set 2 (demoSpans 2), .set 1 (demoSpans 7), .set 3 (demoSpans 3)]

/-! ## Basic facts -/

@[simp] theorem Store.log_finalizedInfo (s : Store) (e : Event) :
    (s.log e).finalizedInfo = s.finalizedInfo := rfl

@[simp] theorem Store.log_savedStateRoots (s : Store) (e : Event) :
    (s.log e).savedStateRoots = s.savedStateRoots := rfl

@[simp] theorem Store.log_stateSummaryCache (s : Store) (e : Event) :
    (s.log e).stateSummaryCache = s.stateSummaryCache := rfl

@[simp] theorem Store.log_states (s : Store) (e : Event) :
    (s.log e).states = s.states := rfl

@[simp] theorem Store.log_stateSummaries (s : Store) (e : Event) :
    (s.log e).stateSummaries = s.stateSummaries := rfl

@[simp] theorem Store.log_trace (s : Store) (e : Event) :
    (s.log e).trace = s.trace ++ [e] := rfl

@[simp] theorem Store.log_stateRoots (s : Store) (e : Event) :
    (s.log e).stateRoots = s.stateRoots := rfl

@[simp] theorem Store.flushed_finalizedInfo (s : Store) (r : Nat) :
    (s.flushed r).finalizedInfo = s.finalizedInfo := rfl

@[simp] theorem Store.flushed_savedStateRoots (s : Store) (r : Nat) :
    (s.flushed r).savedStateRoots = s.savedStateRoots := rfl

@[simp] theorem Store.flushed_stateSummaryCache (s : Store) (r : Nat) :
    (s.flushed r).stateSummaryCache = [] := rfl

@[simp] theorem Store.flushed_states (s : Store) (r : Nat) :
    (s.flushed r).states = s.states := rfl

@[simp] theorem Store.flushed_stateRoots (s : Store) (r : Nat) :
    (s.flushed r).stateRoots = s.stateRoots := rfl

@[simp] theorem HasState_log (env : Env) (s : Store) (e : Event) (r : Nat) :
    HasState env (s.log e) r = HasState env s r := rfl

theorem Event.inLoop_mono {lo hi lo2 hi2 : Nat} (hlo : lo2 ≤ lo) (hhi : hi ≤ hi2)
    {e : Event} (h : e.inLoop lo hi) : e.inLoop lo2 hi2 := by
  cases e <;> simp only [Event.inLoop] at h ⊢ <;> omega

theorem LoopFrame.refl (lo hi : Nat) (s : Store) : LoopFrame lo hi s s :=
  ⟨rfl, rfl, rfl, fun _ h => h, List.Sublist.refl _, [], by simp, by simp⟩

theorem LoopFrame.mono {lo hi lo2 hi2 : Nat} {s t : Store} (hlo : lo2 ≤ lo)
    (hhi : hi ≤ hi2) (h : LoopFrame lo hi s t) : LoopFrame lo2 hi2 s t := by
  obtain ⟨h1, h2, h3, h4, h5, evs, h6, h7⟩ := h
  exact ⟨h1, h2, h3, h4, h5, evs, h6, fun e he => Event.inLoop_mono hlo hhi (h7 e he)⟩

theorem LoopFrame.trans {lo hi : Nat} {s t u : Store} (h : LoopFrame lo hi s t)
    (k : LoopFrame lo hi t u) : LoopFrame lo hi s u := by
  obtain ⟨h1, h2, h3, h4, h5, evs, h6, h7⟩ := h
  obtain ⟨k1, k2, k3, k4, k5, evt, k6, k7⟩ := k
  refine ⟨k1.trans h1, k2.trans h2, k3.trans h3, fun r hr => k4 r (h4 r hr),
    k5.trans h5, evs ++ evt, by rw [k6, h6, List.append_assoc], ?_⟩
  intro e he
  rcases List.mem_append.1 he with he | he
  · exact h7 e he
  · exact k7 e he

/-- The index scan is `List.erase` as long as the root was not met before
index `i`. -/
theorem removeSavedStateRootFrom_eq_erase (aRoot : Nat) (roots : List Nat) :
    ∀ (n i : Nat), i + n = roots.length → aRoot ∉ roots.take i →
      removeSavedStateRootFrom aRoot roots n i = roots.erase aRoot := by
  intro n
  induction n with
  | zero =>
    intro i hi hnot
    have hlen : roots.length ≤ i := by omega
    rw [List.take_of_length_le hlen] at hnot
    simp [removeSavedStateRootFrom, List.erase_of_not_mem hnot]
  | succ n ih =>
    intro i hi hnot
    have hlt : i < roots.length := by omega
    unfold removeSavedStateRootFrom
    have hsplit : roots = roots.take i ++ roots[i] :: roots.drop (i + 1) := by
      rw [← List.drop_eq_getElem_cons hlt, List.take_append_drop]
    by_cases hEq : roots[i]? = some aRoot
    · rw [if_pos hEq]
      have hget : roots[i] = aRoot := by
        rw [List.getElem?_eq_getElem hlt] at hEq
        exact Option.some.inj hEq
      conv_rhs => rw [hsplit]
      rw [List.erase_append_right _ hnot, hget, List.erase_cons_head]
    · rw [if_neg hEq]
      apply ih (i + 1) (by omega)
      rw [List.take_succ, List.getElem?_eq_getElem hlt]
      intro hmem
      rcases List.mem_append.1 hmem with hmem | hmem
      · exact hnot hmem
      · simp only [Option.toList, List.mem_singleton] at hmem
        apply hEq
        rw [List.getElem?_eq_getElem hlt, hmem]

theorem removeSavedStateRoot_eq_erase (aRoot : Nat) (roots : List Nat) :
    removeSavedStateRoot aRoot roots = roots.erase aRoot :=
  removeSavedStateRootFrom_eq_erase aRoot roots roots.length 0 (by simp) (by simp)

/-- An archive point can only be named when the archive interval is not
zero. -/
theorem isArchivedPoint_interval {env : Env} {k : Nat} (h : isArchivedPoint env k) :
    env.slotsPerArchivedPoint ≠ 0 := by
  intro h0
  obtain ⟨h1, h2⟩ := h
  rw [h0, Nat.mod_zero] at h1
  exact h2 h1

/-! ## Resolving an archive point -/

/-- Resolving an archive point only extends the trace, by lookups for that
slot. -/
theorem resolveArchivedPoint_snd (env : Env) (k : Nat) (s : Store) :
    ∃ evs, (resolveArchivedPoint env k s).2 = { s with trace := s.trace ++ evs } ∧
      ∀ e ∈ evs, e = .getBySlot k ∨ e = .highestSlotBlocksBelow k ∨
        ∃ r, e = .stateByRoot k r := by
  unfold resolveArchivedPoint
  simp only []
  cases env.getBySlot k with
  | error e => exact ⟨[.getBySlot k], by simp [Store.log], by simp⟩
  | ok c =>
    cases c with
    | some cached => exact ⟨[.getBySlot k], by simp [Store.log], by simp⟩
    | none =>
      have two : ∃ evs, (s.log (.getBySlot k)).log (.highestSlotBlocksBelow k) =
          { s with trace := s.trace ++ evs } ∧
          ∀ e ∈ evs, e = .getBySlot k ∨ e = .highestSlotBlocksBelow k ∨
            ∃ r, e = .stateByRoot k r :=
        ⟨[.getBySlot k, .highestSlotBlocksBelow k], by simp [Store.log], by simp⟩
      cases env.HighestSlotBlocksBelow k with
      | error e => exact two
      | ok blks =>
        match blks with
        | [] => exact two
        | _ :: _ :: _ => exact two
        | [blk] =>
          simp only []
          cases env.HashTreeRoot blk.Block with
          | error e => exact two
          | ok root =>
            simp only []
            cases HasState env ((s.log (.getBySlot k)).log (.highestSlotBlocksBelow k)) root with
            | error e => exact two
            | ok b =>
              cases b with
              | true => exact two
              | false =>
                have three : ∃ evs, ((s.log (.getBySlot k)).log
                    (.highestSlotBlocksBelow k)).log (.stateByRoot k root) =
                    { s with trace := s.trace ++ evs } ∧
                    ∀ e ∈ evs, e = .getBySlot k ∨ e = .highestSlotBlocksBelow k ∨
                      ∃ r, e = .stateByRoot k r :=
                  ⟨[.getBySlot k, .highestSlotBlocksBelow k, .stateByRoot k root],
                    by simp [Store.log], by simp⟩
                simp only []
                cases env.StateByRoot root with
                | error e => exact three
                | ok st => exact three

/-- A resolved archive point has the root the design document describes; a
cache miss has consulted `HasState`, and the state is left nil only when the
root is persisted already. -/
theorem resolveArchivedPoint_ok {env : Env} {k : Nat} {s : Store} {r : Nat}
    {st : Option BeaconState} (h : (resolveArchivedPoint env k s).1 = .ok (r, st)) :
    resolvedRoot env k = some r ∧ (st = none → r ∈ s.stateRoots) ∧
      (env.getBySlot k = .ok none → env.hasStateErr r = none) := by
  unfold resolveArchivedPoint at h
  unfold resolvedRoot
  simp only [] at h
  cases hg : env.getBySlot k with
  | error e => simp [hg] at h
  | ok c =>
    cases c with
    | some cached =>
      simp only [hg, Except.ok.injEq, Prod.mk.injEq] at h
      obtain ⟨h1, h2⟩ := h
      subst h1 h2
      simp
    | none =>
      simp only [hg] at h ⊢
      cases hb : env.HighestSlotBlocksBelow k with
      | error e => simp [hb] at h
      | ok blks =>
        match blks, hb with
        | [], hb => simp [hb] at h
        | _ :: _ :: _, hb => simp [hb] at h
        | [blk], hb =>
          simp only [hb] at h ⊢
          cases hh : env.HashTreeRoot blk.Block with
          | error e => simp [hh] at h
          | ok root =>
            simp only [hh] at h ⊢
            unfold HasState at h
            cases he : env.hasStateErr root with
            | some e => simp [he] at h
            | none =>
              simp only [he, Store.log_stateRoots] at h
              by_cases hm : root ∈ s.stateRoots
              · simp only [hm, decide_True, Except.ok.injEq, Prod.mk.injEq] at h
                obtain ⟨h1, h2⟩ := h
                subst h1
                simp [hm, he]
              · simp only [hm, decide_False] at h
                cases hs : env.StateByRoot root with
                | error e => simp [hs] at h
                | ok st2 =>
                  simp only [hs, Except.ok.injEq, Prod.mk.injEq] at h
                  obtain ⟨h1, h2⟩ := h
                  subst h1 h2
                  simp [he]

/-- When the root of an archive point is persisted already and `HasState` can
be read, resolving it succeeds without regenerating any state. -/
theorem resolveArchivedPoint_durable {env : Env} {k r : Nat} (s : Store)
    (hres : resolvedRoot env k = some r) (herr : env.hasStateErr r = none)
    (hmem : r ∈ s.stateRoots) :
    ∃ st evs, resolveArchivedPoint env k s = (.ok (r, st), { s with trace := s.trace ++ evs }) ∧
      ∀ e ∈ evs, e = .getBySlot k ∨ e = .highestSlotBlocksBelow k := by
  unfold resolvedRoot at hres
  unfold resolveArchivedPoint
  simp only []
  cases hg : env.getBySlot k with
  | error e => simp [hg] at hres
  | ok c =>
    cases c with
    | some cached =>
      simp only [hg, Option.some.injEq] at hres
      subst hres
      exact ⟨some cached.state, [.getBySlot k], by simp [Store.log], by simp⟩
    | none =>
      simp only [hg] at hres ⊢
      cases hb : env.HighestSlotBlocksBelow k with
      | error e => simp [hb] at hres
      | ok blks =>
        match blks, hb with
        | [], hb => simp [hb] at hres
        | _ :: _ :: _, hb => simp [hb] at hres
        | [blk], hb =>
          simp only [hb] at hres ⊢
          cases hh : env.HashTreeRoot blk.Block with
          | error e => simp [hh] at hres
          | ok root =>
            simp only [hh, Option.some.injEq] at hres ⊢
            subst hres
            refine ⟨none, [.getBySlot k, .highestSlotBlocksBelow k], ?_, by simp⟩
            have hmem2 : root ∈ ((s.log (.getBySlot k)).log
                (.highestSlotBlocksBelow k)).stateRoots := hmem
            simp only [HasState, herr, hmem2, decide_True]
            simp [Store.log]

/-! ## One archive point -/

/-- A save either fails and changes nothing, or persists the state under the
root and keeps every other persisted root. -/
theorem SaveState_cases (env : Env) (s : Store) (st : Option BeaconState) (r : Nat) :
    (∃ x, st = some x ∧ SaveState env s st r =
        (.ok, { s with states := (r, x) :: s.states.filter (fun p => p.1 ≠ r) })) ∨
      ((SaveState env s st r).1 ≠ .ok ∧ (SaveState env s st r).2 = s) := by
  unfold SaveState
  cases st with
  | none => right; simp
  | some x =>
    simp only []
    cases h : env.saveStateErr x r with
    | some e => right; simp
    | none => left; exact ⟨x, rfl, by simp⟩

/-- Persisting a state keeps the persisted roots and adds the new one. -/
theorem mem_stateRoots_put (s : Store) (r q : Nat) (x : BeaconState) :
    q ∈ ({ s with states := (r, x) :: s.states.filter (fun p => p.1 ≠ r) } : Store).stateRoots ↔
      q = r ∨ q ∈ s.stateRoots := by
  simp only [Store.stateRoots, List.map_cons, List.mem_cons, List.mem_map, List.mem_filter,
    Prod.exists, exists_and_right, exists_eq_right, decide_eq_true_eq, ne_eq]
  constructor
  · rintro (h | ⟨h, _⟩)
    · exact Or.inl h
    · exact Or.inr h
  · rintro (h | h)
    · exact Or.inl h
    · by_cases hq : q = r
      · exact Or.inl hq
      · exact Or.inr ⟨h, hq⟩

/-- What one archive point may do to the store. -/
theorem archivedPoint_frame (env : Env) (k : Nat) (s : Store) :
    LoopFrame k (k + 1) s (archivedPoint env k s).2 := by
  obtain ⟨evs, hsnd, hev⟩ := resolveArchivedPoint_snd env k s
  have hev2 : ∀ e ∈ evs, e.inLoop k (k + 1) := by
    intro e he
    rcases hev e he with h | h | ⟨r, h⟩ <;> subst h <;> simp [Event.inLoop]
  unfold archivedPoint
  rcases hres : resolveArchivedPoint env k s with ⟨res, s1⟩
  rw [hres] at hsnd
  simp only at hsnd
  subst hsnd
  have base : LoopFrame k (k + 1) s { s with trace := s.trace ++ evs } :=
    ⟨rfl, rfl, rfl, fun _ h => h, List.Sublist.refl _, evs, rfl, hev2⟩
  cases res with
  | error e => exact base
  | ok p =>
    obtain ⟨aRoot, aState⟩ := p
    simp only []
    cases HasState env { s with trace := s.trace ++ evs } aRoot with
    | error e => exact base
    | ok b =>
      cases b with
      | true =>
        refine ⟨rfl, rfl, rfl, fun _ h => h, ?_, evs ++ [.removeSavedStateRoot k aRoot], ?_, ?_⟩
        · simp only [removeSavedStateRoot_eq_erase]
          exact List.erase_sublist _ _
        · simp [Store.log]
        · intro e he
          rcases List.mem_append.1 he with he | he
          · exact hev2 e he
          · simp only [List.mem_singleton] at he
            subst he
            simp [Event.inLoop]
      | false =>
        simp only []
        rcases SaveState_cases env
            (Store.log { s with trace := s.trace ++ evs } (.saveState k aState aRoot))
            aState aRoot with ⟨x, hx, hsave⟩ | ⟨hne, hsame⟩
        · subst hx
          rw [hsave]
          refine ⟨rfl, rfl, rfl, ?_, List.Sublist.refl _,
            evs ++ [.saveState k (some x) aRoot, .logSaved x.slot aRoot], ?_, ?_⟩
          · intro q hq
            have := (mem_stateRoots_put (Store.log { s with trace := s.trace ++ evs }
              (.saveState k (some x) aRoot)) aRoot q x).2 (Or.inr hq)
            exact this
          · simp [Store.log]
          · intro e he
            rcases List.mem_append.1 he with he | he
            · exact hev2 e he
            · simp only [List.mem_cons, List.mem_singleton, List.not_mem_nil, or_false] at he
              rcases he with he | he <;> subst he <;> simp [Event.inLoop]
        · rcases hsv : SaveState env
              (Store.log { s with trace := s.trace ++ evs } (.saveState k aState aRoot))
              aState aRoot with ⟨o, s2⟩
          rw [hsv] at hne hsame
          simp only at hne hsame
          subst hsame
          have fr : LoopFrame k (k + 1) s
              (Store.log { s with trace := s.trace ++ evs } (.saveState k aState aRoot)) := by
            refine ⟨rfl, rfl, rfl, fun _ h => h, List.Sublist.refl _,
              evs ++ [.saveState k aState aRoot], by simp [Store.log], ?_⟩
            intro e he
            rcases List.mem_append.1 he with he | he
            · exact hev2 e he
            · simp only [List.mem_singleton] at he
              subst he
              simp [Event.inLoop]
          cases o with
          | ok => exact absurd rfl hne
          | error e => exact fr
          | panic => exact fr

/-- A successful `HasState` read tells whether the root is persisted. -/
theorem HasState_ok {env : Env} {s : Store} {r : Nat} {b : Bool}
    (h : HasState env s r = .ok b) :
    env.hasStateErr r = none ∧ b = decide (r ∈ s.stateRoots) := by
  unfold HasState at h
  cases he : env.hasStateErr r with
  | some e => simp [he] at h
  | none =>
    simp only [he, Except.ok.injEq] at h
    exact ⟨rfl, h.symm⟩

/-- After an archive point that ends normally its resolved root is persisted:
either it was persisted before and its first occurrence was erased from the
retention list, or it was not and the retention list was left alone. -/
theorem archivedPoint_ok {env : Env} {k : Nat} {s t : Store}
    (h : archivedPoint env k s = (.ok, t)) :
    ∃ r, resolvedRoot env k = some r ∧ env.hasStateErr r = none ∧ r ∈ t.stateRoots ∧
      ((r ∈ s.stateRoots ∧ t.savedStateRoots = s.savedStateRoots.erase r) ∨
        (r ∉ s.stateRoots ∧ t.savedStateRoots = s.savedStateRoots)) := by
  obtain ⟨evs, hsnd, -⟩ := resolveArchivedPoint_snd env k s
  unfold archivedPoint at h
  rcases hres : resolveArchivedPoint env k s with ⟨res, s1⟩
  have hfst : (resolveArchivedPoint env k s).1 = res := by rw [hres]
  rw [hres] at hsnd h
  simp only at hsnd
  subst hsnd
  cases res with
  | error e => simp at h
  | ok p =>
    obtain ⟨aRoot, aState⟩ := p
    obtain ⟨hroot, -, -⟩ := resolveArchivedPoint_ok hfst
    simp only [] at h
    cases hh : HasState env { s with trace := s.trace ++ evs } aRoot with
    | error e => simp [hh] at h
    | ok b =>
      obtain ⟨herr, hb⟩ := HasState_ok hh
      cases b with
      | true =>
        simp only [hh, Prod.mk.injEq, true_and] at h
        subst h
        have hin : aRoot ∈ s.stateRoots := by
          have := hb.symm
          simp only [decide_eq_true_eq] at this
          exact this
        exact ⟨aRoot, hroot, herr, hin, Or.inl ⟨hin, removeSavedStateRoot_eq_erase _ _⟩⟩
      | false =>
        simp only [hh] at h
        have hout : aRoot ∉ s.stateRoots := by
          have := hb.symm
          simp only [decide_eq_false_iff_not] at this
          exact this
        rcases SaveState_cases env
            (Store.log { s with trace := s.trace ++ evs } (.saveState k aState aRoot))
            aState aRoot with ⟨x, hx, hsave⟩ | ⟨hne, -⟩
        · subst hx
          rw [hsave] at h
          simp only [Prod.mk.injEq, true_and] at h
          subst h
          exact ⟨aRoot, hroot, herr, (mem_stateRoots_put _ aRoot aRoot x).2 (Or.inl rfl),
            Or.inr ⟨hout, rfl⟩⟩
        · rcases hsv : SaveState env
              (Store.log { s with trace := s.trace ++ evs } (.saveState k aState aRoot))
              aState aRoot with ⟨o, s2⟩
          rw [hsv] at hne h
          cases o with
          | ok => exact absurd rfl hne
          | error e => simp at h
          | panic => simp at h

/-- An archive point whose resolved root is persisted already: the root is
erased from the retention list, nothing is saved, and the iteration ends
normally. -/
theorem archivedPoint_durable {env : Env} {k r : Nat} (s : Store)
    (hres : resolvedRoot env k = some r) (herr : env.hasStateErr r = none)
    (hmem : r ∈ s.stateRoots) :
    ∃ evs, archivedPoint env k s =
        (.ok, { s with savedStateRoots := s.savedStateRoots.erase r,
                       trace := s.trace ++ evs }) ∧
      ∀ e ∈ evs, e = .getBySlot k ∨ e = .highestSlotBlocksBelow k ∨
        e = .removeSavedStateRoot k r := by
  obtain ⟨st, evs, hr, hev⟩ := resolveArchivedPoint_durable s hres herr hmem
  refine ⟨evs ++ [.removeSavedStateRoot k r], ?_, ?_⟩
  · unfold archivedPoint
    rw [hr]
    have hh : HasState env { s with trace := s.trace ++ evs } r = .ok true := by
      have hm2 : r ∈ ({ s with trace := s.trace ++ evs } : Store).stateRoots := hmem
      simp only [HasState, herr, hm2, decide_True]
    simp only [hh, removeSavedStateRoot_eq_erase]
    simp [Store.log]
  · intro e he
    rcases List.mem_append.1 he with he | he
    · rcases hev e he with h | h
      · exact Or.inl h
      · exact Or.inr (Or.inl h)
    · simp only [List.mem_singleton] at he
      exact Or.inr (Or.inr he)

/-- An archive point that misses the cache and finds no block or several:
the iteration fails with `unknown block` after the two lookups. -/
theorem archivedPoint_ambiguous {env : Env} {k : Nat} (s : Store)
    {blks : List SignedBeaconBlock} (hmiss : env.getBySlot k = .ok none)
    (hblks : env.HighestSlotBlocksBelow k = .ok blks) (hlen : blks.length ≠ 1) :
    archivedPoint env k s =
      (.error .unknownBlock,
        { s with trace := s.trace ++ [.getBySlot k, .highestSlotBlocksBelow k] }) := by
  unfold archivedPoint resolveArchivedPoint
  simp only [hmiss, hblks]
  match blks, hlen with
  | [], _ => simp [Store.log]
  | [_], h => simp at h
  | _ :: _ :: _, _ => simp [Store.log]

/-! ## The slot loop -/

/-- What one loop iteration may do to the store. -/
theorem loopBody_frame (env : Env) (ctx : Context) (k : Nat) (s : Store) :
    LoopFrame k (k + 1) s (loopBody env ctx k s).2 := by
  unfold loopBody
  cases ctx k with
  | some e => exact LoopFrame.refl _ _ _
  | none =>
    simp only []
    split
    · exact LoopFrame.refl _ _ _
    · split
      · exact archivedPoint_frame env k s
      · exact LoopFrame.refl _ _ _

/-- What `n` loop iterations from `slot` may do to the store. -/
theorem migrateLoop_frame (env : Env) (ctx : Context) :
    ∀ (n slot : Nat) (s : Store),
      LoopFrame slot (slot + n) s (migrateLoop env ctx n slot s).2 := by
  intro n
  induction n with
  | zero => intro slot s; exact LoopFrame.refl _ _ _
  | succ n ih =>
    intro slot s
    unfold migrateLoop
    have hb := loopBody_frame env ctx slot s
    rcases hbody : loopBody env ctx slot s with ⟨o, s1⟩
    rw [hbody] at hb
    have hb2 : LoopFrame slot (slot + (n + 1)) s s1 :=
      LoopFrame.mono (Nat.le_refl _) (by omega) hb
    cases o with
    | ok =>
      have hrest := ih (slot + 1) s1
      exact hb2.trans (LoopFrame.mono (by omega) (by omega) hrest)
    | error e => exact hb2
    | panic => exact hb2

theorem migrateLoop_succ (env : Env) (ctx : Context) (n slot : Nat) (s : Store) :
    migrateLoop env ctx (n + 1) slot s =
      match loopBody env ctx slot s with
      | (.ok, s1) => migrateLoop env ctx n (slot + 1) s1
      | r => r := rfl

/-- Running `a + b` iterations is running `a` and, if they all end normally,
`b` more. -/
theorem migrateLoop_add (env : Env) (ctx : Context) (b : Nat) :
    ∀ (a slot : Nat) (s : Store),
      migrateLoop env ctx (a + b) slot s =
        match migrateLoop env ctx a slot s with
        | (.ok, s1) => migrateLoop env ctx b (slot + a) s1
        | r => r := by
  intro a
  induction a with
  | zero => intro slot s; simp [migrateLoop]
  | succ a ih =>
    intro slot s
    have hab : a + 1 + b = (a + b) + 1 := by omega
    rw [hab, migrateLoop_succ, migrateLoop_succ]
    rcases hbody : loopBody env ctx slot s with ⟨o, s1⟩
    cases o with
    | ok =>
      simp only []
      rw [ih (slot + 1) s1]
      have hs : slot + 1 + a = slot + (a + 1) := by omega
      rw [hs]
    | error e => rfl
    | panic => rfl

/-- An iteration that ends normally read no cancellation and no zero archive
interval, and if its slot is an archive point the resolved root is persisted
afterwards. -/
theorem loopBody_ok {env : Env} {ctx : Context} {k : Nat} {s t : Store}
    (h : loopBody env ctx k s = (.ok, t)) :
    ctx k = none ∧ env.slotsPerArchivedPoint ≠ 0 ∧
      (isArchivedPoint env k →
        ∃ r, resolvedRoot env k = some r ∧ env.hasStateErr r = none ∧ r ∈ t.stateRoots) := by
  unfold loopBody at h
  cases hc : ctx k with
  | some e => simp [hc] at h
  | none =>
    simp only [hc] at h
    by_cases h0 : env.slotsPerArchivedPoint = 0
    · simp [h0] at h
    · simp only [h0, if_false] at h
      refine ⟨rfl, h0, ?_⟩
      intro hap
      have hap2 : k % env.slotsPerArchivedPoint = 0 ∧ k ≠ 0 := hap
      rw [if_pos hap2] at h
      obtain ⟨r, hr, he, hm, -⟩ := archivedPoint_ok h
      exact ⟨r, hr, he, hm⟩

/-- A loop that ends normally read no cancellation at any of its slots, and
the resolved root of each archive point it visited is persisted at the end. -/
theorem migrateLoop_ok {env : Env} {ctx : Context} :
    ∀ (n slot : Nat) (s t : Store), migrateLoop env ctx n slot s = (.ok, t) →
      ∀ k, slot ≤ k → k < slot + n →
        ctx k = none ∧ env.slotsPerArchivedPoint ≠ 0 ∧
        (isArchivedPoint env k →
          ∃ r, resolvedRoot env k = some r ∧ env.hasStateErr r = none ∧ r ∈ t.stateRoots) := by
  intro n
  induction n with
  | zero => intro slot s t _ k h1 h2; omega
  | succ n ih =>
    intro slot s t h k h1 h2
    unfold migrateLoop at h
    rcases hbody : loopBody env ctx slot s with ⟨o, s1⟩
    rw [hbody] at h
    cases o with
    | error e => simp at h
    | panic => simp at h
    | ok =>
      simp only [] at h
      by_cases hk : k = slot
      · subst hk
        obtain ⟨hc, h0, hap⟩ := loopBody_ok hbody
        refine ⟨hc, h0, fun hp => ?_⟩
        obtain ⟨r, hr, he, hm⟩ := hap hp
        have hfr := migrateLoop_frame env ctx n (k + 1) s1
        rw [h] at hfr
        exact ⟨r, hr, he, hfr.stateRoots r hm⟩
      · exact ih (slot + 1) s1 t h k (by omega) (by omega)

/-- Running the loop over slots whose archive points are all persisted
already, with no cancellation and a non-zero archive interval: it ends
normally, saves nothing, and only erases roots from the retention list. -/
theorem migrateLoop_durable {env : Env} {ctx : Context} :
    ∀ (n slot : Nat) (s : Store),
      (∀ k, slot ≤ k → k < slot + n →
        ctx k = none ∧ env.slotsPerArchivedPoint ≠ 0 ∧ (isArchivedPoint env k →
        ∃ r, resolvedRoot env k = some r ∧ env.hasStateErr r = none ∧ r ∈ s.stateRoots)) →
      ∃ roots evs, migrateLoop env ctx n slot s =
          (.ok, { s with savedStateRoots := roots, trace := s.trace ++ evs }) ∧
        roots.Sublist s.savedStateRoots ∧
        (∀ e ∈ evs, ∀ j st r, e ≠ .saveState j st r) ∧
        ((∀ k, slot ≤ k → k < slot + n → isArchivedPoint env k →
            ∀ r, resolvedRoot env k = some r → r ∉ s.savedStateRoots) →
          roots = s.savedStateRoots) := by
  intro n
  induction n with
  | zero =>
    intro slot s _
    exact ⟨s.savedStateRoots, [], by simp [migrateLoop], List.Sublist.refl _, by simp,
      fun _ => rfl⟩
  | succ n ih =>
    intro slot s hall
    obtain ⟨hc, h0, hap⟩ := hall slot (Nat.le_refl _) (by omega)
    rw [migrateLoop_succ]
    by_cases hp : isArchivedPoint env slot
    · obtain ⟨r, hr, he, hm⟩ := hap hp
      obtain ⟨evs, hstep, hev⟩ := archivedPoint_durable s hr he hm
      have hp2 : slot % env.slotsPerArchivedPoint = 0 ∧ slot ≠ 0 := hp
      have hbody : loopBody env ctx slot s =
          (.ok, { s with savedStateRoots := s.savedStateRoots.erase r,
                         trace := s.trace ++ evs }) := by
        unfold loopBody
        simp only [hc, h0, if_false, if_pos hp2]
        exact hstep
      rw [hbody]
      simp only []
      obtain ⟨roots, evt, hrest, hsub, hevt, hsame⟩ := ih (slot + 1)
        { s with savedStateRoots := s.savedStateRoots.erase r, trace := s.trace ++ evs }
        (fun k h1 h2 => hall k (by omega) (by omega))
      refine ⟨roots, evs ++ evt, ?_, hsub.trans (List.erase_sublist _ _), ?_, ?_⟩
      · rw [hrest]
        simp
      · intro e hmem j st q
        rcases List.mem_append.1 hmem with hmem | hmem
        · rcases hev e hmem with h | h | h <;> subst h <;> simp
        · exact hevt e hmem j st q
      · intro habs
        have hr0 : r ∉ s.savedStateRoots := habs slot (Nat.le_refl _) (by omega) hp r hr
        have herase : s.savedStateRoots.erase r = s.savedStateRoots :=
          List.erase_of_not_mem hr0
        rw [← herase]
        apply hsame
        intro k h1 h2 hk q hq
        simp only [herase]
        exact habs k (by omega) (by omega) hk q hq
    · have hp2 : ¬ (slot % env.slotsPerArchivedPoint = 0 ∧ slot ≠ 0) := hp
      have hbody : loopBody env ctx slot s = (.ok, s) := by
        unfold loopBody
        simp only [hc, h0, if_false, if_neg hp2]
      rw [hbody]
      simp only []
      obtain ⟨roots, evt, hrest, hsub, hevt, hsame⟩ := ih (slot + 1) s
        (fun k h1 h2 => hall k (by omega) (by omega))
      exact ⟨roots, evt, hrest, hsub, hevt,
        fun habs => hsame (fun k h1 h2 => habs k (by omega) (by omega))⟩

/-- When the retention list has no duplicates and holds persisted roots only,
a loop that ends normally leaves in it no root of an archive point it
visited. -/
theorem migrateLoop_clean {env : Env} {ctx : Context} :
    ∀ (n slot : Nat) (s t : Store), migrateLoop env ctx n slot s = (.ok, t) →
      s.savedStateRoots.Nodup → (∀ r, r ∈ s.savedStateRoots → r ∈ s.stateRoots) →
      ∀ k, slot ≤ k → k < slot + n → isArchivedPoint env k →
        ∀ r, resolvedRoot env k = some r → r ∉ t.savedStateRoots := by
  intro n
  induction n with
  | zero => intro slot s t _ _ _ k h1 h2; omega
  | succ n ih =>
    intro slot s t h hnd hsub k h1 h2 hk r hr
    rw [migrateLoop_succ] at h
    have hfb := loopBody_frame env ctx slot s
    rcases hbody : loopBody env ctx slot s with ⟨o, s1⟩
    rw [hbody] at h hfb
    cases o with
    | error e => simp at h
    | panic => simp at h
    | ok =>
      simp only [] at h
      have hfr := migrateLoop_frame env ctx n (slot + 1) s1
      rw [h] at hfr
      by_cases hks : k = slot
      · subst hks
        have hstep : archivedPoint env k s = (.ok, s1) := by
          unfold loopBody at hbody
          cases hc : ctx k with
          | some e => simp [hc] at hbody
          | none =>
            have hk2 : k % env.slotsPerArchivedPoint = 0 ∧ k ≠ 0 := hk
            simp only [hc, isArchivedPoint_interval hk, if_false, if_pos hk2] at hbody
            exact hbody
        obtain ⟨q, hq, -, -, hcase⟩ := archivedPoint_ok hstep
        rw [hr] at hq
        have hqr : r = q := Option.some.inj hq
        subst hqr
        have habs : r ∉ s1.savedStateRoots := by
          rcases hcase with ⟨-, herase⟩ | ⟨hout, hsame⟩
          · rw [herase]
            intro hin
            exact ((List.Nodup.mem_erase_iff hnd).1 hin).1 rfl
          · rw [hsame]
            intro hin
            exact hout (hsub r hin)
        intro hin
        exact habs (hfr.savedStateRoots.subset hin)
      · exact ih (slot + 1) s1 t h (hnd.sublist hfb.savedStateRoots)
          (fun q hq => hfb.stateRoots q (hsub q (hfb.savedStateRoots.subset hq)))
          k (by omega) (by omega) hk r hr

/-- An archive point never panics: the state is nil only when the root is
persisted, and then nothing is saved. -/
theorem archivedPoint_ne_panic (env : Env) (k : Nat) (s : Store) :
    (archivedPoint env k s).1 ≠ .panic := by
  obtain ⟨evs, hsnd, -⟩ := resolveArchivedPoint_snd env k s
  unfold archivedPoint
  rcases hres : resolveArchivedPoint env k s with ⟨res, s1⟩
  have hfst : (resolveArchivedPoint env k s).1 = res := by rw [hres]
  rw [hres] at hsnd
  simp only at hsnd
  subst hsnd
  cases res with
  | error e => simp
  | ok p =>
    obtain ⟨aRoot, aState⟩ := p
    obtain ⟨-, hnil, -⟩ := resolveArchivedPoint_ok hfst
    simp only []
    cases hh : HasState env { s with trace := s.trace ++ evs } aRoot with
    | error e => simp
    | ok b =>
      obtain ⟨-, hb⟩ := HasState_ok hh
      cases b with
      | true => simp
      | false =>
        cases aState with
        | none =>
          have hm : aRoot ∈ ({ s with trace := s.trace ++ evs } : Store).stateRoots :=
            hnil rfl
          simp [hm] at hb
        | some x =>
          simp only [SaveState]
          cases env.saveStateErr x aRoot with
          | some e => simp
          | none => simp

/-- With a non-zero archive interval the loop never panics. -/
theorem migrateLoop_ne_panic {env : Env} (ctx : Context)
    (h0 : env.slotsPerArchivedPoint ≠ 0) :
    ∀ (n slot : Nat) (s : Store), (migrateLoop env ctx n slot s).1 ≠ .panic := by
  intro n
  induction n with
  | zero => intro slot s; simp [migrateLoop]
  | succ n ih =>
    intro slot s
    rw [migrateLoop_succ]
    have hb : (loopBody env ctx slot s).1 ≠ .panic := by
      unfold loopBody
      cases ctx slot with
      | some e => simp
      | none =>
        simp only [h0, if_false]
        split
        · exact archivedPoint_ne_panic env slot s
        · simp
    rcases hbody : loopBody env ctx slot s with ⟨o, s1⟩
    rw [hbody] at hb
    cases o with
    | ok => exact ih (slot + 1) s1
    | error e => simp
    | panic => exact absurd rfl hb

/-! ## After the loop -/

/-- What the end of a migration does: a failed flush returns the error with
the store untouched but for the trace; otherwise the summaries are durable,
the buffer is empty and the snapshot is refreshed when the cache holds the
finalized root. -/
theorem finishMigration_eq (env : Env) (fRoot fSlot : Nat) (s : Store) :
    finishMigration env fRoot fSlot s =
      match env.saveStateSummariesErr s.stateSummaryCache with
      | some e => (.error e, s.log (.saveStateSummaries s.stateSummaryCache))
      | none =>
        match env.getByRoot fRoot with
        | .error e => (.error e, s.flushed fRoot)
        | .ok none => (.ok, s.flushed fRoot)
        | .ok (some fInfo) =>
          (.ok, { s.flushed fRoot with finalizedInfo :=
                    { root := fRoot, state := some fInfo.state.Copy, slot := fSlot } }) := by
  unfold finishMigration SaveStateSummaries
  simp only [Store.getAll, Store.log_stateSummaryCache]
  cases env.saveStateSummariesErr s.stateSummaryCache with
  | some e => simp [Store.log]
  | none =>
    simp only []
    cases env.getByRoot fRoot with
    | error e => simp [Store.log, Store.clear, Store.flushed]
    | ok c =>
      cases c with
      | none => simp [Store.log, Store.clear, Store.flushed]
      | some fInfo => simp [Store.log, Store.clear, Store.flushed]

/-- The shape of a migration once the finalized block is known and is not
behind the snapshot. -/
theorem MigrateToCold_eq {env : Env} (ctx : Context) {fRoot : Nat} (s : Store)
    {fBlock : SignedBeaconBlock} (hblock : env.Block fRoot = .ok fBlock)
    (hle : s.finalizedInfo.slot ≤ fBlock.Block.Slot) :
    MigrateToCold env ctx fRoot s =
      match migrateLoop env ctx (fBlock.Block.Slot - s.finalizedInfo.slot)
          s.finalizedInfo.slot s with
      | (.ok, s1) => finishMigration env fRoot fBlock.Block.Slot s1
      | r => r := by
  unfold MigrateToCold
  simp only [hblock]
  rw [if_neg (by omega)]

/-- A migration whose finalized block is behind the snapshot returns at
once. -/
theorem MigrateToCold_behind {env : Env} (ctx : Context) {fRoot : Nat} (s : Store)
    {fBlock : SignedBeaconBlock} (hblock : env.Block fRoot = .ok fBlock)
    (hlt : fBlock.Block.Slot < s.finalizedInfo.slot) :
    MigrateToCold env ctx fRoot s = (.ok, s) := by
  unfold MigrateToCold
  simp only [hblock]
  rw [if_pos (by omega)]

/-! ## The migration -/

/-- C1, archive coverage: after a migration that returns success, every
archive point strictly between the old and the new finalized slot has a
resolved root (the cache entry's root, or on a miss the hash of the unique
highest-slot block below the slot), and `HasState` is true of that root in the
resulting store. -/
theorem archive_coverage (env : Env) (ctx : Context) (fRoot : Nat) (s t : Store)
    (fBlock : SignedBeaconBlock) (hblock : env.Block fRoot = .ok fBlock)
    (h : MigrateToCold env ctx fRoot s = (.ok, t)) (slot : Nat)
    (hlo : s.finalizedInfo.slot < slot) (hhi : slot < fBlock.Block.Slot)
    (hap : isArchivedPoint env slot) :
    ∃ r, resolvedRoot env slot = some r ∧ HasState env t r = .ok true := by
  rw [MigrateToCold_eq ctx s hblock (by omega)] at h
  rcases hloop : migrateLoop env ctx (fBlock.Block.Slot - s.finalizedInfo.slot)
      s.finalizedInfo.slot s with ⟨o, s1⟩
  rw [hloop] at h
  cases o with
  | error e => simp at h
  | panic => simp at h
  | ok =>
    simp only [] at h
    obtain ⟨-, -, hcov⟩ := migrateLoop_ok _ _ s s1 hloop slot (by omega) (by omega)
    obtain ⟨r, hr, he, hm⟩ := hcov hap
    refine ⟨r, hr, ?_⟩
    have hroots : t.stateRoots = s1.stateRoots := by
      rw [finishMigration_eq] at h
      cases hf : env.saveStateSummariesErr s1.stateSummaryCache with
      | some e => simp [hf] at h
      | none =>
        simp only [hf] at h
        cases hg : env.getByRoot fRoot with
        | error e => simp [hg] at h
        | ok c =>
          cases c with
          | none =>
            simp only [hg, Prod.mk.injEq, true_and] at h
            subst h
            rfl
          | some fInfo =>
            simp only [hg, Prod.mk.injEq, true_and] at h
            subst h
            rfl
    simp only [HasState, he, hroots, hm, decide_True]

/-- C1 on the small chain: migrating from slot 0 to the block at slot 3
persists the state of archive point 2. -/
theorem archive_coverage_witness :
    ∃ r, resolvedRoot demoEnv 2 = some r ∧
      HasState demoEnv (MigrateToCold demoEnv background 3 (demoStore 0)).2 r = .ok true :=
  archive_coverage demoEnv background 3 (demoStore 0) _ (demoBlock 3) rfl
    (by decide) 2 (by decide) (by decide) (by decide)

/-- C2 as stated fails when the two slots are equal: on the small chain, with
the snapshot at slot 9 and the finalized block at slot 9, the call flushes and
clears the summary buffer and rewrites the snapshot. -/
theorem noop_when_not_ahead_counterexample :
    demoEnv.Block 9 = .ok (demoBlock 9) ∧
    (demoStore 9).finalizedInfo.slot ≥ (demoBlock 9).Block.Slot ∧
    (MigrateToCold demoEnv background 9 (demoStore 9)).1 = .ok ∧
    (MigrateToCold demoEnv background 9 (demoStore 9)).2.stateSummaryCache = [] ∧
    (demoStore 9).stateSummaryCache ≠ [] ∧
    Event.saveStateSummaries (demoStore 9).stateSummaryCache ∈
      (MigrateToCold demoEnv background 9 (demoStore 9)).2.trace ∧
    Event.clearSummaries ∈ (MigrateToCold demoEnv background 9 (demoStore 9)).2.trace ∧
    (MigrateToCold demoEnv background 9 (demoStore 9)).2.finalizedInfo ≠
      (demoStore 9).finalizedInfo :=
  ⟨rfl, by decide, by decide, by decide, by decide, by decide, by decide, by decide⟩

/-- C2, amended: when the finalized block is not ahead of the snapshot no
state is saved and the retention list is not touched.  When it is strictly
behind, the call returns success at once and changes nothing at all.  When the
two slots are equal the loop is empty and the call goes on to the summary
flush.  If the flush fails, its error is returned, the buffer is not cleared
and the snapshot is not touched.  If the flush succeeds, the buffered
summaries are durable, the buffer is cleared and the cache is asked for the
finalized root: on a hit the call succeeds and the snapshot is rewritten with
the root, a copy of the cached state and the slot; on a miss the call
succeeds and the snapshot is unchanged; on a lookup error that error is
returned and the snapshot is unchanged. -/
theorem noop_when_behind (env : Env) (ctx : Context) (fRoot : Nat) (s : Store)
    (fBlock : SignedBeaconBlock) (hblock : env.Block fRoot = .ok fBlock)
    (hge : s.finalizedInfo.slot ≥ fBlock.Block.Slot) :
    (MigrateToCold env ctx fRoot s).2.states = s.states ∧
    (MigrateToCold env ctx fRoot s).2.savedStateRoots = s.savedStateRoots ∧
    (s.finalizedInfo.slot > fBlock.Block.Slot → MigrateToCold env ctx fRoot s = (.ok, s)) ∧
    (s.finalizedInfo.slot = fBlock.Block.Slot →
      (∀ e, env.saveStateSummariesErr s.stateSummaryCache = some e →
        MigrateToCold env ctx fRoot s =
          (.error e, s.log (.saveStateSummaries s.stateSummaryCache))) ∧
      (env.saveStateSummariesErr s.stateSummaryCache = none →
        (MigrateToCold env ctx fRoot s).2.stateSummaryCache = [] ∧
        (MigrateToCold env ctx fRoot s).2.stateSummaries =
          s.stateSummaries ++ s.stateSummaryCache ∧
        (MigrateToCold env ctx fRoot s).2.trace =
          s.trace ++ [.saveStateSummaries s.stateSummaryCache, .clearSummaries,
            .getByRoot fRoot] ∧
        (∀ fInfo, env.getByRoot fRoot = .ok (some fInfo) →
          (MigrateToCold env ctx fRoot s).1 = .ok ∧
          (MigrateToCold env ctx fRoot s).2.finalizedInfo =
            { root := fRoot, state := some fInfo.state.Copy, slot := fBlock.Block.Slot }) ∧
        (env.getByRoot fRoot = .ok none →
          (MigrateToCold env ctx fRoot s).1 = .ok ∧
          (MigrateToCold env ctx fRoot s).2.finalizedInfo = s.finalizedInfo) ∧
        (∀ e, env.getByRoot fRoot = .error e →
          (MigrateToCold env ctx fRoot s).1 = .error e ∧
          (MigrateToCold env ctx fRoot s).2.finalizedInfo = s.finalizedInfo))) := by
  by_cases hgt : s.finalizedInfo.slot > fBlock.Block.Slot
  · rw [MigrateToCold_behind ctx s hblock hgt]
    exact ⟨rfl, rfl, fun _ => rfl, fun h => by omega⟩
  · have heq : s.finalizedInfo.slot = fBlock.Block.Slot := by omega
    have hrun : MigrateToCold env ctx fRoot s =
        finishMigration env fRoot fBlock.Block.Slot s := by
      rw [MigrateToCold_eq ctx s hblock (by omega), heq, Nat.sub_self]
      rfl
    rw [hrun, finishMigration_eq]
    refine ⟨?_, ?_, fun h => absurd h hgt, fun _ => ⟨?_, ?_⟩⟩
    · cases env.saveStateSummariesErr s.stateSummaryCache with
      | some e => rfl
      | none =>
        simp only []
        cases env.getByRoot fRoot with
        | error e => rfl
        | ok c => cases c <;> rfl
    · cases env.saveStateSummariesErr s.stateSummaryCache with
      | some e => rfl
      | none =>
        simp only []
        cases env.getByRoot fRoot with
        | error e => rfl
        | ok c => cases c <;> rfl
    · intro e he
      rw [he]
    · intro hnone
      rw [hnone]
      simp only []
      refine ⟨?_, ?_, ?_, ?_, ?_, ?_⟩
      · cases env.getByRoot fRoot with
        | error e => rfl
        | ok c => cases c <;> rfl
      · cases env.getByRoot fRoot with
        | error e => rfl
        | ok c => cases c <;> rfl
      · cases env.getByRoot fRoot with
        | error e => rfl
        | ok c => cases c <;> rfl
      · intro fInfo hg
        rw [hg]
        exact ⟨rfl, rfl⟩
      · intro hg
        rw [hg]
        exact ⟨rfl, rfl⟩
      · intro e hg
        rw [hg]
        exact ⟨rfl, rfl⟩

/-- C2 amended, on the small chain.  With the snapshot at slot 5 a migration to
the block at slot 3 changes nothing.  With the snapshot at slot 9 a migration
to the block at slot 9 flushes the one buffered summary, empties the buffer
and rewrites the snapshot from the cache entry of root 9.  When the store
refuses the flush the same call returns the error with the buffer and the
snapshot as they were. -/
theorem noop_when_behind_witness :
    MigrateToCold demoEnv background 3 (demoStore 5) = (.ok, demoStore 5) ∧
    ((MigrateToCold demoEnv background 9 (demoStore 9)).2.stateSummaryCache = [] ∧
      (MigrateToCold demoEnv background 9 (demoStore 9)).2.stateSummaries =
        [{ root := 1, slot := 1 }] ∧
      (MigrateToCold demoEnv background 9 (demoStore 9)).1 = .ok ∧
      (MigrateToCold demoEnv background 9 (demoStore 9)).2.finalizedInfo =
        { root := 9, state := some { slot := 9, content := 5 }, slot := 9 }) ∧
    MigrateToCold demoEnvFlushFails background 9 (demoStore 9) =
      (.error (.other 7),
        (demoStore 9).log (.saveStateSummaries (demoStore 9).stateSummaryCache)) :=
  ⟨(noop_when_behind demoEnv background 3 (demoStore 5) (demoBlock 3) rfl
      (by decide)).2.2.1 (by decide),
    ⟨((noop_when_behind demoEnv background 9 (demoStore 9) (demoBlock 9) rfl
        (by decide)).2.2.2 rfl).2 rfl |>.1,
      ((noop_when_behind demoEnv background 9 (demoStore 9) (demoBlock 9) rfl
        (by decide)).2.2.2 rfl).2 rfl |>.2.1,
      (((noop_when_behind demoEnv background 9 (demoStore 9) (demoBlock 9) rfl
        (by decide)).2.2.2 rfl).2 rfl |>.2.2.2.1 _ rfl).1,
      (((noop_when_behind demoEnv background 9 (demoStore 9) (demoBlock 9) rfl
        (by decide)).2.2.2 rfl).2 rfl |>.2.2.2.1 _ rfl).2⟩,
    ((noop_when_behind demoEnvFlushFails background 9 (demoStore 9) (demoBlock 9) rfl
      (by decide)).2.2.2 rfl).1 _ rfl⟩

/-- C3 as stated fails: on the small chain the cache has no entry for the
finalized root 3, so the snapshot stays at slot 0 and a second migration walks
the same slots again; archive point 2 is persisted by then, and its root is
erased from the retention list. -/
theorem migrate_twice_counterexample :
    (MigrateToCold demoEnv background 3 (demoStore 0)).1 = .ok ∧
    (MigrateToCold demoEnv background 3
      (MigrateToCold demoEnv background 3 (demoStore 0)).2).1 = .ok ∧
    (MigrateToCold demoEnv background 3 (demoStore 0)).2.savedStateRoots = [102, 7] ∧
    (MigrateToCold demoEnv background 3
      (MigrateToCold demoEnv background 3 (demoStore 0)).2).2.savedStateRoots = [7] ∧
    (MigrateToCold demoEnv background 3
      (MigrateToCold demoEnv background 3 (demoStore 0)).2).2.savedStateRoots ≠
      (MigrateToCold demoEnv background 3 (demoStore 0)).2.savedStateRoots := by
  decide

/-- C3, amended: if a migration returns success and flushing an empty summary
list does not fail, a second migration to the same root returns success too
and leaves the persisted states, the summary buffer and the snapshot as they
were.  The retention list can only lose roots; it is unchanged when the
snapshot stands at the finalized slot or beyond after the first call, and also
when, before the first call, it had no duplicates and held persisted roots
only. -/
theorem migrate_twice (env : Env) (ctx : Context) (fRoot : Nat) (s t : Store)
    (fBlock : SignedBeaconBlock) (hblock : env.Block fRoot = .ok fBlock)
    (h1 : MigrateToCold env ctx fRoot s = (.ok, t))
    (hflush : env.saveStateSummariesErr [] = none) :
    ∃ u, MigrateToCold env ctx fRoot t = (.ok, u) ∧
      u.states = t.states ∧
      u.stateSummaryCache = t.stateSummaryCache ∧
      u.finalizedInfo = t.finalizedInfo ∧
      u.savedStateRoots.Sublist t.savedStateRoots ∧
      (fBlock.Block.Slot ≤ t.finalizedInfo.slot → u.savedStateRoots = t.savedStateRoots) ∧
      (s.savedStateRoots.Nodup → (∀ r, r ∈ s.savedStateRoots → r ∈ s.stateRoots) →
        u.savedStateRoots = t.savedStateRoots) := by
  by_cases hgt : s.finalizedInfo.slot > fBlock.Block.Slot
  · rw [MigrateToCold_behind ctx s hblock hgt] at h1
    simp only [Prod.mk.injEq, true_and] at h1
    subst h1
    exact ⟨s, MigrateToCold_behind ctx s hblock hgt, rfl, rfl, rfl, List.Sublist.refl _,
      fun _ => rfl, fun _ _ => rfl⟩
  · have hle : s.finalizedInfo.slot ≤ fBlock.Block.Slot := by omega
    rw [MigrateToCold_eq ctx s hblock hle] at h1
    rcases hloop : migrateLoop env ctx (fBlock.Block.Slot - s.finalizedInfo.slot)
        s.finalizedInfo.slot s with ⟨o, s1⟩
    rw [hloop] at h1
    have hfr := migrateLoop_frame env ctx (fBlock.Block.Slot - s.finalizedInfo.slot)
      s.finalizedInfo.slot s
    rw [hloop] at hfr
    cases o with
    | error e => simp at h1
    | panic => simp at h1
    | ok =>
      simp only [] at h1
      rw [finishMigration_eq] at h1
      cases hf : env.saveStateSummariesErr s1.stateSummaryCache with
      | some e => simp [hf] at h1
      | none =>
        simp only [hf] at h1
        cases hg : env.getByRoot fRoot with
        | error e => simp [hg] at h1
        | ok c =>
          cases c with
          | some fInfo =>
            simp only [hg, Prod.mk.injEq, true_and] at h1
            subst h1
            rw [MigrateToCold_eq ctx _ hblock (Nat.le_refl _)]
            simp only [Nat.sub_self, migrateLoop, finishMigration_eq, Store.flushed_stateSummaryCache,
              hflush, hg]
            exact ⟨_, rfl, rfl, rfl, rfl, List.Sublist.refl _, fun _ => rfl, fun _ _ => rfl⟩
          | none =>
            simp only [hg, Prod.mk.injEq, true_and] at h1
            subst h1
            have hcov := migrateLoop_ok _ _ s s1 hloop
            have hclean := migrateLoop_clean _ _ s s1 hloop
            obtain ⟨roots, evs, hrest, hsub, -, hsame⟩ :=
              @migrateLoop_durable env ctx
                (fBlock.Block.Slot - s.finalizedInfo.slot) s.finalizedInfo.slot
                (s1.flushed fRoot) (fun k hk1 hk2 => hcov k hk1 hk2)
            have hinfo : (s1.flushed fRoot).finalizedInfo = s.finalizedInfo :=
              hfr.finalizedInfo
            rw [MigrateToCold_eq ctx _ hblock (by rw [hinfo]; exact hle), hinfo, hrest]
            simp only [finishMigration_eq, Store.flushed_stateSummaryCache, hflush, hg]
            refine ⟨_, rfl, rfl, rfl, hinfo, hsub, ?_, ?_⟩
            · intro hback
              have hzero : fBlock.Block.Slot - s.finalizedInfo.slot = 0 := by
                omega
              rw [hzero] at hrest
              simp only [migrateLoop, Prod.mk.injEq, true_and] at hrest
              have := congrArg Store.savedStateRoots hrest
              simp only at this
              exact this.symm
            · intro hnd hpers
              exact hsame (fun k hk1 hk2 hk r hr => hclean hnd hpers k hk1 hk2 hk r hr)

/-- C3 amended, on the small chain: the second migration to root 3 returns
success and keeps states, buffer and snapshot. -/
theorem migrate_twice_witness :
    ∃ u, MigrateToCold demoEnv background 3
        (MigrateToCold demoEnv background 3 (demoStore 0)).2 = (.ok, u) ∧
      u.states = (MigrateToCold demoEnv background 3 (demoStore 0)).2.states ∧
      u.stateSummaryCache =
        (MigrateToCold demoEnv background 3 (demoStore 0)).2.stateSummaryCache ∧
      u.finalizedInfo = (MigrateToCold demoEnv background 3 (demoStore 0)).2.finalizedInfo ∧
      u.savedStateRoots.Sublist
        (MigrateToCold demoEnv background 3 (demoStore 0)).2.savedStateRoots ∧
      ((demoBlock 3).Block.Slot ≤
          (MigrateToCold demoEnv background 3 (demoStore 0)).2.finalizedInfo.slot →
        u.savedStateRoots =
          (MigrateToCold demoEnv background 3 (demoStore 0)).2.savedStateRoots) ∧
      ((demoStore 0).savedStateRoots.Nodup →
        (∀ r, r ∈ (demoStore 0).savedStateRoots → r ∈ (demoStore 0).stateRoots) →
        u.savedStateRoots =
          (MigrateToCold demoEnv background 3 (demoStore 0)).2.savedStateRoots) :=
  migrate_twice demoEnv background 3 (demoStore 0) _ (demoBlock 3) rfl (by decide) rfl

/-- The calls of a loop over `[lo, hi)`: every save is for a slot below `hi`,
and the summary buffer is neither flushed nor cleared. -/
theorem LoopFrame.calls {lo hi : Nat} {s t : Store} (h : LoopFrame lo hi s t) :
    ∃ evs, t.trace = s.trace ++ evs ∧
      (∀ j st r, Event.saveState j st r ∈ evs → j < hi) ∧
      (∀ l, Event.saveStateSummaries l ∉ evs) ∧ Event.clearSummaries ∉ evs := by
  obtain ⟨evs, htr, hin⟩ := h.trace
  refine ⟨evs, htr, ?_, ?_, ?_⟩
  · intro j st r hm
    exact (hin _ hm).2
  · intro l hm
    exact hin _ hm
  · intro hm
    exact hin _ hm

/-- C4, ambiguity detection: if an archive point of the migrated range misses
the epoch-boundary cache and `HighestSlotBlocksBelow` returns two or more
blocks for it, the migration returns an error (`unknown block` when the
iterations before it ended normally and the context is not cancelled there);
`SaveState` is called neither for that slot nor for a later one, and the
summary buffer, the persisted summaries and the snapshot are left as they
were. -/
theorem ambiguity_detection (env : Env) (ctx : Context) (fRoot : Nat) (s : Store)
    (fBlock : SignedBeaconBlock) (k : Nat) (blks : List SignedBeaconBlock)
    (hblock : env.Block fRoot = .ok fBlock)
    (hlo : s.finalizedInfo.slot ≤ k) (hhi : k < fBlock.Block.Slot)
    (hap : isArchivedPoint env k) (hmiss : env.getBySlot k = .ok none)
    (hblks : env.HighestSlotBlocksBelow k = .ok blks) (htwo : 2 ≤ blks.length) :
    (∃ e, (MigrateToCold env ctx fRoot s).1 = .error e) ∧
    (∀ s1, migrateLoop env ctx (k - s.finalizedInfo.slot) s.finalizedInfo.slot s = (.ok, s1) →
      ctx k = none → (MigrateToCold env ctx fRoot s).1 = .error .unknownBlock) ∧
    (MigrateToCold env ctx fRoot s).2.stateSummaryCache = s.stateSummaryCache ∧
    (MigrateToCold env ctx fRoot s).2.stateSummaries = s.stateSummaries ∧
    (MigrateToCold env ctx fRoot s).2.finalizedInfo = s.finalizedInfo ∧
    ∃ evs, (MigrateToCold env ctx fRoot s).2.trace = s.trace ++ evs ∧
      ∀ j st r, Event.saveState j st r ∈ evs → j < k := by
  have h0 := isArchivedPoint_interval hap
  have hn : fBlock.Block.Slot - s.finalizedInfo.slot =
      (k - s.finalizedInfo.slot) + ((fBlock.Block.Slot - k - 1) + 1) := by omega
  have hk : s.finalizedInfo.slot + (k - s.finalizedInfo.slot) = k := by omega
  rw [MigrateToCold_eq ctx s hblock (by omega), hn, migrateLoop_add]
  have hfr := migrateLoop_frame env ctx (k - s.finalizedInfo.slot) s.finalizedInfo.slot s
  have hnp := migrateLoop_ne_panic ctx h0 (k - s.finalizedInfo.slot) s.finalizedInfo.slot s
  rcases hpre : migrateLoop env ctx (k - s.finalizedInfo.slot) s.finalizedInfo.slot s
    with ⟨o, s1⟩
  rw [hpre] at hfr hnp
  rw [hk] at hfr
  obtain ⟨evs, htr, hsave, -, -⟩ := hfr.calls
  cases o with
  | panic => exact absurd rfl hnp
  | error e =>
    exact ⟨⟨e, rfl⟩, fun s2 h => by simp at h, hfr.stateSummaryCache, hfr.stateSummaries,
      hfr.finalizedInfo, evs, htr, hsave⟩
  | ok =>
    simp only [hk, migrateLoop_succ]
    unfold loopBody
    cases hc : ctx k with
    | some e =>
      exact ⟨⟨e, rfl⟩, fun s2 _ h => by simp at h, hfr.stateSummaryCache,
        hfr.stateSummaries, hfr.finalizedInfo, evs, htr, hsave⟩
    | none =>
      have hap2 : k % env.slotsPerArchivedPoint = 0 ∧ k ≠ 0 := hap
      simp only [h0, if_false, if_pos hap2]
      rw [archivedPoint_ambiguous s1 hmiss hblks (by omega)]
      refine ⟨⟨_, rfl⟩, fun _ _ _ => rfl, hfr.stateSummaryCache, hfr.stateSummaries,
        hfr.finalizedInfo, evs ++ [.getBySlot k, .highestSlotBlocksBelow k], ?_, ?_⟩
      · have htr2 : s1.trace = s.trace ++ evs := htr
        rw [htr2, List.append_assoc]
      · intro j st r hm
        rcases List.mem_append.1 hm with hm | hm
        · exact hsave j st r hm
        · simp at hm

/-- C4 on the small chain: the database holds two blocks below archive point
4, so a migration from slot 0 to the block at slot 6 fails there. -/
theorem ambiguity_detection_witness :
    (∃ e, (MigrateToCold demoEnv background 6 (demoStore 0)).1 = .error e) ∧
    (∀ s1, migrateLoop demoEnv background (4 - (demoStore 0).finalizedInfo.slot)
        (demoStore 0).finalizedInfo.slot (demoStore 0) = (.ok, s1) →
      background 4 = none →
      (MigrateToCold demoEnv background 6 (demoStore 0)).1 = .error .unknownBlock) ∧
    (MigrateToCold demoEnv background 6 (demoStore 0)).2.stateSummaryCache =
      (demoStore 0).stateSummaryCache ∧
    (MigrateToCold demoEnv background 6 (demoStore 0)).2.stateSummaries =
      (demoStore 0).stateSummaries ∧
    (MigrateToCold demoEnv background 6 (demoStore 0)).2.finalizedInfo =
      (demoStore 0).finalizedInfo ∧
    ∃ evs, (MigrateToCold demoEnv background 6 (demoStore 0)).2.trace =
        (demoStore 0).trace ++ evs ∧
      ∀ j st r, Event.saveState j st r ∈ evs → j < 4 :=
  ambiguity_detection demoEnv background 6 (demoStore 0) (demoBlock 6) 4
    [demoBlock 3, demoBlock 3] rfl (by decide) (by decide) (by decide) rfl rfl (by decide)

/-- C5, cancellation safety: when the iterations before slot `k` ended
normally and the context is found cancelled at the start of the iteration for
`k`, the migration returns the context's error and the store is the one those
iterations left: every persisted state is still persisted, the summary buffer
is neither flushed nor cleared, and the snapshot is not advanced. -/
theorem cancellation_safety (env : Env) (ctx : Context) (fRoot : Nat) (s s1 : Store)
    (fBlock : SignedBeaconBlock) (k : Nat) (e : Err)
    (hblock : env.Block fRoot = .ok fBlock)
    (hlo : s.finalizedInfo.slot ≤ k) (hhi : k < fBlock.Block.Slot)
    (hearlier : migrateLoop env ctx (k - s.finalizedInfo.slot) s.finalizedInfo.slot s =
      (.ok, s1))
    (hcancel : ctx k = some e) :
    MigrateToCold env ctx fRoot s = (.error e, s1) ∧
    (∀ r, r ∈ s.stateRoots → r ∈ s1.stateRoots) ∧
    s1.stateSummaryCache = s.stateSummaryCache ∧
    s1.stateSummaries = s.stateSummaries ∧
    s1.finalizedInfo = s.finalizedInfo ∧
    ∃ evs, s1.trace = s.trace ++ evs ∧
      (∀ l, Event.saveStateSummaries l ∉ evs) ∧ Event.clearSummaries ∉ evs := by
  have hn : fBlock.Block.Slot - s.finalizedInfo.slot =
      (k - s.finalizedInfo.slot) + ((fBlock.Block.Slot - k - 1) + 1) := by omega
  have hk : s.finalizedInfo.slot + (k - s.finalizedInfo.slot) = k := by omega
  have hfr := migrateLoop_frame env ctx (k - s.finalizedInfo.slot) s.finalizedInfo.slot s
  rw [hearlier] at hfr
  obtain ⟨evs, htr, -, hflush, hclear⟩ := hfr.calls
  refine ⟨?_, hfr.stateRoots, hfr.stateSummaryCache, hfr.stateSummaries, hfr.finalizedInfo,
    evs, htr, hflush, hclear⟩
  rw [MigrateToCold_eq ctx s hblock (by omega), hn, migrateLoop_add, hearlier]
  simp only [hk, migrateLoop_succ]
  unfold loopBody
  simp only [hcancel]

/-- C5 on the small chain: a context found cancelled at slot 3 stops a
migration from slot 0 to the block at slot 6 after archive point 2 was
saved. -/
theorem cancellation_safety_witness :
    MigrateToCold demoEnv cancelledAt3 6 (demoStore 0) =
      (.error .canceled, (migrateLoop demoEnv cancelledAt3 3 0 (demoStore 0)).2) ∧
    (∀ r, r ∈ (demoStore 0).stateRoots →
      r ∈ (migrateLoop demoEnv cancelledAt3 3 0 (demoStore 0)).2.stateRoots) ∧
    (migrateLoop demoEnv cancelledAt3 3 0 (demoStore 0)).2.stateSummaryCache =
      (demoStore 0).stateSummaryCache ∧
    (migrateLoop demoEnv cancelledAt3 3 0 (demoStore 0)).2.stateSummaries =
      (demoStore 0).stateSummaries ∧
    (migrateLoop demoEnv cancelledAt3 3 0 (demoStore 0)).2.finalizedInfo =
      (demoStore 0).finalizedInfo ∧
    ∃ evs, (migrateLoop demoEnv cancelledAt3 3 0 (demoStore 0)).2.trace =
        (demoStore 0).trace ++ evs ∧
      (∀ l, Event.saveStateSummaries l ∉ evs) ∧ Event.clearSummaries ∉ evs :=
  cancellation_safety demoEnv cancelledAt3 6 (demoStore 0) _ (demoBlock 6) 3 .canceled
    rfl (by decide) (by decide) (by decide) rfl

/-- C6, snapshot update: after a migration that runs to the end and returns
success, the snapshot is exactly the finalized root, a copy of the cached
state (equal to it) and the new finalized slot when the epoch-boundary cache
holds an entry for the finalized root; it is unchanged when the cache holds
none. -/
theorem snapshot_update (env : Env) (ctx : Context) (fRoot : Nat) (s t : Store)
    (fBlock : SignedBeaconBlock) (hblock : env.Block fRoot = .ok fBlock)
    (hle : s.finalizedInfo.slot ≤ fBlock.Block.Slot)
    (h : MigrateToCold env ctx fRoot s = (.ok, t)) :
    (∀ fInfo, env.getByRoot fRoot = .ok (some fInfo) →
      t.finalizedInfo =
        { root := fRoot, state := some fInfo.state.Copy, slot := fBlock.Block.Slot } ∧
      fInfo.state.Copy = fInfo.state) ∧
    (env.getByRoot fRoot = .ok none → t.finalizedInfo = s.finalizedInfo) := by
  rw [MigrateToCold_eq ctx s hblock hle] at h
  have hfr := migrateLoop_frame env ctx (fBlock.Block.Slot - s.finalizedInfo.slot)
    s.finalizedInfo.slot s
  rcases hloop : migrateLoop env ctx (fBlock.Block.Slot - s.finalizedInfo.slot)
      s.finalizedInfo.slot s with ⟨o, s1⟩
  rw [hloop] at h hfr
  cases o with
  | error e => simp at h
  | panic => simp at h
  | ok =>
    simp only [finishMigration_eq] at h
    cases hf : env.saveStateSummariesErr s1.stateSummaryCache with
    | some e => simp [hf] at h
    | none =>
      simp only [hf] at h
      constructor
      · intro fInfo hg
        simp only [hg, Prod.mk.injEq, true_and] at h
        subst h
        exact ⟨rfl, rfl⟩
      · intro hg
        simp only [hg, Prod.mk.injEq, true_and] at h
        subst h
        exact hfr.finalizedInfo

/-- C6 on the small chain: the cache holds the finalized root 9, and a
migration from slot 8 sets the snapshot to that root at slot 9. -/
theorem snapshot_update_witness :
    (∀ fInfo, demoEnv.getByRoot 9 = .ok (some fInfo) →
      (MigrateToCold demoEnv background 9 (demoStore 8)).2.finalizedInfo =
        { root := 9, state := some fInfo.state.Copy, slot := (demoBlock 9).Block.Slot } ∧
      fInfo.state.Copy = fInfo.state) ∧
    (demoEnv.getByRoot 9 = .ok none →
      (MigrateToCold demoEnv background 9 (demoStore 8)).2.finalizedInfo =
        (demoStore 8).finalizedInfo) :=
  snapshot_update demoEnv background 9 (demoStore 8) _ (demoBlock 9) rfl (by decide)
    (by decide)

/-- C7, snapshot atomicity on failure: a migration that returns an error (or
ends in any other way than success) leaves the snapshot exactly as it was;
the snapshot differs afterwards only if the finalized block was found, the
loop over the whole range ended normally, the summary flush succeeded and the
call returned success. -/
theorem snapshot_unchanged_on_error (env : Env) (ctx : Context) (fRoot : Nat) (s : Store) :
    ((MigrateToCold env ctx fRoot s).1 ≠ .ok →
      (MigrateToCold env ctx fRoot s).2.finalizedInfo = s.finalizedInfo) ∧
    ((MigrateToCold env ctx fRoot s).2.finalizedInfo ≠ s.finalizedInfo →
      (MigrateToCold env ctx fRoot s).1 = .ok ∧
      ∃ fBlock s1, env.Block fRoot = .ok fBlock ∧
        migrateLoop env ctx (fBlock.Block.Slot - s.finalizedInfo.slot)
          s.finalizedInfo.slot s = (.ok, s1) ∧
        env.saveStateSummariesErr s1.stateSummaryCache = none) := by
  have key : (MigrateToCold env ctx fRoot s).2.finalizedInfo ≠ s.finalizedInfo →
      (MigrateToCold env ctx fRoot s).1 = .ok ∧
      ∃ fBlock s1, env.Block fRoot = .ok fBlock ∧
        migrateLoop env ctx (fBlock.Block.Slot - s.finalizedInfo.slot)
          s.finalizedInfo.slot s = (.ok, s1) ∧
        env.saveStateSummariesErr s1.stateSummaryCache = none := by
    intro hne
    cases hblock : env.Block fRoot with
    | error e2 =>
      exfalso
      apply hne
      unfold MigrateToCold
      simp only [hblock]
    | ok fBlock =>
      by_cases hgt : s.finalizedInfo.slot > fBlock.Block.Slot
      · exfalso
        apply hne
        rw [MigrateToCold_behind ctx s hblock hgt]
      · rw [MigrateToCold_eq ctx s hblock (by omega)] at hne ⊢
        have hfr := migrateLoop_frame env ctx (fBlock.Block.Slot - s.finalizedInfo.slot)
          s.finalizedInfo.slot s
        rcases hloop : migrateLoop env ctx (fBlock.Block.Slot - s.finalizedInfo.slot)
            s.finalizedInfo.slot s with ⟨o, s1⟩
        rw [hloop] at hne hfr
        cases o with
        | error e2 => exact absurd hfr.finalizedInfo hne
        | panic => exact absurd hfr.finalizedInfo hne
        | ok =>
          simp only [finishMigration_eq] at hne ⊢
          cases hf : env.saveStateSummariesErr s1.stateSummaryCache with
          | some e2 =>
            simp only [hf] at hne
            exact absurd hfr.finalizedInfo hne
          | none =>
            simp only [hf] at hne ⊢
            cases hg : env.getByRoot fRoot with
            | error e2 =>
              simp only [hg] at hne
              exact absurd hfr.finalizedInfo hne
            | ok c =>
              cases c with
              | none =>
                simp only [hg] at hne
                exact absurd hfr.finalizedInfo hne
              | some fInfo => exact ⟨rfl, fBlock, s1, rfl, hloop, hf⟩
  refine ⟨?_, key⟩
  intro hnok
  by_contra hne
  exact hnok (key hne).1

/-- C7 on the small chain: the migration from slot 0 to the block at slot 6
fails at archive point 4 and the snapshot is the one before the call. -/
theorem snapshot_unchanged_on_error_witness :
    (MigrateToCold demoEnv background 6 (demoStore 0)).1 = .error .unknownBlock ∧
    (MigrateToCold demoEnv background 6 (demoStore 0)).2.finalizedInfo =
      (demoStore 0).finalizedInfo :=
  ⟨by decide,
    (snapshot_unchanged_on_error demoEnv background 6 (demoStore 0)).1 (by decide)⟩

/-- One migration never moves the snapshot slot backwards. -/
theorem MigrateToCold_slot_le (env : Env) (ctx : Context) (fRoot : Nat) (s : Store) :
    s.finalizedInfo.slot ≤ (MigrateToCold env ctx fRoot s).2.finalizedInfo.slot := by
  cases hblock : env.Block fRoot with
  | error e =>
    unfold MigrateToCold
    simp only [hblock]
    exact Nat.le_refl _
  | ok fBlock =>
    by_cases hgt : s.finalizedInfo.slot > fBlock.Block.Slot
    · rw [MigrateToCold_behind ctx s hblock hgt]
    · rw [MigrateToCold_eq ctx s hblock (by omega)]
      have hfr := migrateLoop_frame env ctx (fBlock.Block.Slot - s.finalizedInfo.slot)
        s.finalizedInfo.slot s
      rcases hloop : migrateLoop env ctx (fBlock.Block.Slot - s.finalizedInfo.slot)
          s.finalizedInfo.slot s with ⟨o, s1⟩
      rw [hloop] at hfr
      have hs1 : s1.finalizedInfo = s.finalizedInfo := hfr.finalizedInfo
      cases o with
      | error e => simp only [hs1]; exact Nat.le_refl _
      | panic => simp only [hs1]; exact Nat.le_refl _
      | ok =>
        simp only [finishMigration_eq]
        cases env.saveStateSummariesErr s1.stateSummaryCache with
        | some e => simp only [Store.log_finalizedInfo, hs1]; exact Nat.le_refl _
        | none =>
          simp only []
          cases env.getByRoot fRoot with
          | error e => simp only [Store.flushed_finalizedInfo, hs1]; exact Nat.le_refl _
          | ok c =>
            cases c with
            | none => simp only [Store.flushed_finalizedInfo, hs1]; exact Nat.le_refl _
            | some fInfo =>
              simp only []
              omega

/-- C8, finalized slot monotonicity: over any sequence of migrations run one
after the other, whatever each of them returns and whatever its collaborators
are, the snapshot slot at the end is at least the slot at the start; a single
call is the sequence of length one. -/
theorem finalized_slot_monotone (calls : List (Env × Context × Nat)) (s : Store) :
    s.finalizedInfo.slot ≤ (runMigrations calls s).finalizedInfo.slot := by
  induction calls generalizing s with
  | nil => exact Nat.le_refl _
  | cons c rest ih =>
    obtain ⟨env, ctx, fRoot⟩ := c
    exact Nat.le_trans (MigrateToCold_slot_le env ctx fRoot s) (ih _)

/-- C9, summary flush ordering: once the slot loop has completed, the buffer
still holds what it held at the start and `SaveStateSummaries` is called with
all of it.  If that fails the error is returned, the buffer is not cleared
and nothing after the flush is called.  If it succeeds every buffered summary
is durable, the buffer is cleared after the flush, and the buffer is empty;
in particular the buffer is empty whenever the whole call succeeds. -/
theorem summary_flush_ordering (env : Env) (ctx : Context) (fRoot : Nat) (s s1 : Store)
    (fBlock : SignedBeaconBlock) (hblock : env.Block fRoot = .ok fBlock)
    (hle : s.finalizedInfo.slot ≤ fBlock.Block.Slot)
    (hloop : migrateLoop env ctx (fBlock.Block.Slot - s.finalizedInfo.slot)
      s.finalizedInfo.slot s = (.ok, s1)) :
    s1.stateSummaryCache = s.stateSummaryCache ∧
    (∃ evs, s1.trace = s.trace ++ evs ∧
      (∀ l, Event.saveStateSummaries l ∉ evs) ∧ Event.clearSummaries ∉ evs) ∧
    (∀ e, env.saveStateSummariesErr s.stateSummaryCache = some e →
      MigrateToCold env ctx fRoot s =
        (.error e, s1.log (.saveStateSummaries s.stateSummaryCache)) ∧
      (MigrateToCold env ctx fRoot s).2.stateSummaryCache = s.stateSummaryCache ∧
      (MigrateToCold env ctx fRoot s).2.stateSummaries = s.stateSummaries) ∧
    (env.saveStateSummariesErr s.stateSummaryCache = none →
      (MigrateToCold env ctx fRoot s).2.trace =
        s1.trace ++ [.saveStateSummaries s.stateSummaryCache, .clearSummaries,
          .getByRoot fRoot] ∧
      (MigrateToCold env ctx fRoot s).2.stateSummaries =
        s.stateSummaries ++ s.stateSummaryCache ∧
      (MigrateToCold env ctx fRoot s).2.stateSummaryCache = []) ∧
    ((MigrateToCold env ctx fRoot s).1 = .ok →
      (MigrateToCold env ctx fRoot s).2.stateSummaryCache = []) := by
  have hfr := migrateLoop_frame env ctx (fBlock.Block.Slot - s.finalizedInfo.slot)
    s.finalizedInfo.slot s
  rw [hloop] at hfr
  have hbuf : s1.stateSummaryCache = s.stateSummaryCache := hfr.stateSummaryCache
  have hdur : s1.stateSummaries = s.stateSummaries := hfr.stateSummaries
  obtain ⟨evs, htr, -, hflush, hclear⟩ := hfr.calls
  have hrun : MigrateToCold env ctx fRoot s =
      finishMigration env fRoot fBlock.Block.Slot s1 := by
    rw [MigrateToCold_eq ctx s hblock hle, hloop]
  rw [hrun, finishMigration_eq, hbuf]
  refine ⟨rfl, ⟨evs, htr, hflush, hclear⟩, ?_, ?_, ?_⟩
  · intro e he
    simp only [he, Store.log_stateSummaryCache, Store.log_stateSummaries]
    exact ⟨trivial, hbuf, hdur⟩
  · intro hnone
    simp only [hnone]
    cases env.getByRoot fRoot with
    | error e => simp [Store.flushed, hbuf, hdur]
    | ok c => cases c <;> simp [Store.flushed, hbuf, hdur]
  · intro hok
    cases hf : env.saveStateSummariesErr s.stateSummaryCache with
    | some e => simp [hf] at hok
    | none =>
      simp only []
      cases env.getByRoot fRoot with
      | error e => rfl
      | ok c => cases c <;> rfl

/-- C9 on the small chain: the migration from slot 0 to the block at slot 3
flushes its one buffered summary and then empties the buffer. -/
theorem summary_flush_ordering_witness :
    (MigrateToCold demoEnv background 3 (demoStore 0)).1 = .ok ∧
    (MigrateToCold demoEnv background 3 (demoStore 0)).2.stateSummaryCache = [] ∧
    (MigrateToCold demoEnv background 3 (demoStore 0)).2.stateSummaries =
      (demoStore 0).stateSummaries ++ (demoStore 0).stateSummaryCache :=
  ⟨by decide,
    ((summary_flush_ordering demoEnv background 3 (demoStore 0) _ (demoBlock 3) rfl
      (by decide) (by decide : migrateLoop demoEnv background 3 0 (demoStore 0) =
        (.ok, (migrateLoop demoEnv background 3 0 (demoStore 0)).2))).2.2.2.2 (by decide)),
    ((summary_flush_ordering demoEnv background 3 (demoStore 0) _ (demoBlock 3) rfl
      (by decide) (by decide : migrateLoop demoEnv background 3 0 (demoStore 0) =
        (.ok, (migrateLoop demoEnv background 3 0 (demoStore 0)).2))).2.2.2.1 rfl).2.1⟩

/-- C10, retention cleanup: at an archive point whose resolved root is
persisted already, the iteration ends normally and the retention list
afterwards is the list before with the first occurrence of the root erased
and every other root in its place; a list without the root is unchanged; and
when the list had no duplicates the root is gone, so that an archive point
resolving to the same root later on, in this or another migration, removes
nothing more. -/
theorem retention_cleanup (env : Env) (k r : Nat) (s : Store)
    (hres : resolvedRoot env k = some r) (hhas : HasState env s r = .ok true) :
    (archivedPoint env k s).1 = .ok ∧
    (archivedPoint env k s).2.savedStateRoots = s.savedStateRoots.erase r ∧
    (archivedPoint env k s).2.states = s.states ∧
    (r ∈ s.savedStateRoots → ∃ before after, s.savedStateRoots = before ++ r :: after ∧
      r ∉ before ∧ (archivedPoint env k s).2.savedStateRoots = before ++ after) ∧
    (r ∉ s.savedStateRoots → (archivedPoint env k s).2.savedStateRoots = s.savedStateRoots) ∧
    (s.savedStateRoots.Nodup →
      r ∉ (archivedPoint env k s).2.savedStateRoots ∧
      ∀ (env2 : Env) (k2 : Nat), resolvedRoot env2 k2 = some r →
        HasState env2 (archivedPoint env k s).2 r = .ok true →
        (archivedPoint env2 k2 (archivedPoint env k s).2).2.savedStateRoots =
          (archivedPoint env k s).2.savedStateRoots) := by
  obtain ⟨herr, hb⟩ := HasState_ok hhas
  have hmem : r ∈ s.stateRoots := by
    have := hb.symm
    simp only [decide_eq_true_eq] at this
    exact this
  obtain ⟨evs, hstep, -⟩ := archivedPoint_durable s hres herr hmem
  rw [hstep]
  refine ⟨rfl, rfl, rfl, ?_, ?_, ?_⟩
  · intro hin
    obtain ⟨before, after, hnot, hsplit, herase⟩ := List.exists_erase_eq hin
    exact ⟨before, after, hsplit, hnot, herase⟩
  · intro hnot
    exact List.erase_of_not_mem hnot
  · intro hnodup
    have hgone : r ∉ s.savedStateRoots.erase r := by
      intro hin
      exact (List.Nodup.mem_erase_iff hnodup).1 hin |>.1 rfl
    refine ⟨hgone, ?_⟩
    intro env2 k2 hres2 hhas2
    obtain ⟨herr2, -⟩ := HasState_ok hhas2
    obtain ⟨evs2, hstep2, -⟩ := @archivedPoint_durable env2 k2 r
      { s with savedStateRoots := s.savedStateRoots.erase r, trace := s.trace ++ evs }
      hres2 herr2 hmem
    rw [hstep2]
    exact List.erase_of_not_mem hgone

/-- C10 on the small chain: root 102 of archive point 2 is persisted and
heads the retention list; the iteration erases it and keeps root 7. -/
theorem retention_cleanup_witness :
    (archivedPoint demoEnv 2 (MigrateToCold demoEnv background 3 (demoStore 0)).2).2.savedStateRoots
      = [7] :=
  (retention_cleanup demoEnv 2 102 (MigrateToCold demoEnv background 3 (demoStore 0)).2
    (by decide) rfl).2.1

/-! ## The calls to `SaveState` -/

theorem savedCalls_append (a b : List Event) :
    savedCalls (a ++ b) = savedCalls a ++ savedCalls b := by
  simp [savedCalls, List.filterMap_append]

theorem savedRoots_append (a b : List Event) :
    savedRoots (a ++ b) = savedRoots a ++ savedRoots b := by
  simp [savedRoots, savedCalls_append]

/-- A save in a stretch of trace is one of its recorded calls. -/
theorem mem_savedCalls {evs : List Event} {j : Nat} {st : Option BeaconState} {r : Nat} :
    Event.saveState j st r ∈ evs ↔ (j, st, r) ∈ savedCalls evs := by
  simp only [savedCalls, List.mem_filterMap]
  constructor
  · intro h
    exact ⟨_, h, rfl⟩
  · rintro ⟨e, he, hc⟩
    cases e with
    | saveState a b c =>
      simp only [Event.savedCall, Option.some.injEq, Prod.mk.injEq] at hc
      obtain ⟨h1, h2, h3⟩ := hc
      subst h1
      subst h2
      subst h3
      exact he
    | _ => simp [Event.savedCall] at hc

/-- The state a resolved archive point carries comes from the cache entry or
from `StateByRoot`. -/
theorem resolveArchivedPoint_state {env : Env} {k : Nat} {s : Store} {r : Nat}
    {x : BeaconState} (h : (resolveArchivedPoint env k s).1 = .ok (r, some x)) :
    StateSource env k r x := by
  unfold resolveArchivedPoint at h
  unfold StateSource
  simp only [] at h
  cases hg : env.getBySlot k with
  | error e => simp [hg] at h
  | ok c =>
    cases c with
    | some cached =>
      simp only [hg, Except.ok.injEq, Prod.mk.injEq, Option.some.injEq] at h
      exact Or.inl ⟨cached, rfl, h.1, h.2⟩
    | none =>
      simp only [hg] at h
      cases hb : env.HighestSlotBlocksBelow k with
      | error e => simp [hb] at h
      | ok blks =>
        match blks, hb with
        | [], hb => simp [hb] at h
        | _ :: _ :: _, hb => simp [hb] at h
        | [blk], hb =>
          simp only [hb] at h
          cases hh : env.HashTreeRoot blk.Block with
          | error e => simp [hh] at h
          | ok root =>
            simp only [hh] at h
            cases hs : HasState env ((s.log (.getBySlot k)).log
                (.highestSlotBlocksBelow k)) root with
            | error e => simp [hs] at h
            | ok b =>
              cases b with
              | true => simp [hs] at h
              | false =>
                simp only [hs] at h
                cases hst : env.StateByRoot root with
                | error e => simp [hst] at h
                | ok st2 =>
                  simp only [hst, Except.ok.injEq, Prod.mk.injEq, Option.some.injEq] at h
                  obtain ⟨h1, h2⟩ := h
                  subst h1 h2
                  exact Or.inr ⟨rfl, hst⟩

/-- One archive point calls `SaveState` at most once, and only for a root
that `HasState` reports absent at the start of the iteration, with a state
that is present; when the iteration ends normally the root is persisted. -/
theorem archivedPoint_saves (env : Env) (k : Nat) (s : Store) :
    ∃ evs, (archivedPoint env k s).2.trace = s.trace ++ evs ∧
      (savedCalls evs = [] ∨
        ∃ x r, savedCalls evs = [(k, some x, r)] ∧ HasState env s r = .ok false ∧
          StateSource env k r x ∧
          ((archivedPoint env k s).1 = .ok → r ∈ (archivedPoint env k s).2.stateRoots)) := by
  obtain ⟨evs, hsnd, hev⟩ := resolveArchivedPoint_snd env k s
  have hnone : savedCalls evs = [] := by
    simp only [savedCalls, List.filterMap_eq_nil_iff]
    intro e he
    rcases hev e he with h | h | ⟨r, h⟩ <;> subst h <;> rfl
  unfold archivedPoint
  rcases hres : resolveArchivedPoint env k s with ⟨res, s1⟩
  have hfst : (resolveArchivedPoint env k s).1 = res := by rw [hres]
  rw [hres] at hsnd
  simp only at hsnd
  subst hsnd
  cases res with
  | error e => exact ⟨evs, rfl, Or.inl hnone⟩
  | ok p =>
    obtain ⟨aRoot, aState⟩ := p
    simp only []
    cases hh : HasState env { s with trace := s.trace ++ evs } aRoot with
    | error e => exact ⟨evs, rfl, Or.inl hnone⟩
    | ok b =>
      cases b with
      | true =>
        refine ⟨evs ++ [.removeSavedStateRoot k aRoot], by simp [Store.log], Or.inl ?_⟩
        rw [savedCalls_append, hnone]
        rfl
      | false =>
        have hh2 : HasState env s aRoot = .ok false := hh
        cases aState with
        | none =>
          exfalso
          obtain ⟨-, hnil, -⟩ := resolveArchivedPoint_ok hfst
          obtain ⟨-, hb⟩ := HasState_ok hh2
          have hm := hnil rfl
          simp [hm] at hb
        | some x =>
          have hsrc := resolveArchivedPoint_state hfst
          simp only [SaveState]
          cases env.saveStateErr x aRoot with
          | some e =>
            refine ⟨evs ++ [.saveState k (some x) aRoot], by simp [Store.log], Or.inr ?_⟩
            refine ⟨x, aRoot, ?_, hh2, hsrc, fun h => by simp at h⟩
            rw [savedCalls_append, hnone]
            rfl
          | none =>
            refine ⟨evs ++ [.saveState k (some x) aRoot, .logSaved x.slot aRoot],
              by simp [Store.log], Or.inr ?_⟩
            refine ⟨x, aRoot, ?_, hh2, hsrc, fun _ => ?_⟩
            · rw [savedCalls_append, hnone]
              rfl
            · simp [Store.stateRoots, Store.log]

/-- One loop iteration calls `SaveState` at most once, as an archive point
does. -/
theorem loopBody_saves (env : Env) (ctx : Context) (k : Nat) (s : Store) :
    ∃ evs, (loopBody env ctx k s).2.trace = s.trace ++ evs ∧
      (savedCalls evs = [] ∨
        ∃ x r, savedCalls evs = [(k, some x, r)] ∧ HasState env s r = .ok false ∧
          StateSource env k r x ∧
          ((loopBody env ctx k s).1 = .ok → r ∈ (loopBody env ctx k s).2.stateRoots)) := by
  unfold loopBody
  cases ctx k with
  | some e => exact ⟨[], by simp, Or.inl rfl⟩
  | none =>
    simp only []
    split
    · exact ⟨[], by simp, Or.inl rfl⟩
    · split
      · exact archivedPoint_saves env k s
      · exact ⟨[], by simp, Or.inl rfl⟩

/-- The `SaveState` calls of a loop: no root is saved twice, none was persisted
when the loop started, every one of them is persisted when the loop ends
normally, and each call is made with a present state, for a slot of the loop,
with a root that `HasState` reports absent in the store at the start of that
slot's iteration. -/
theorem migrateLoop_saves (env : Env) (ctx : Context) :
    ∀ (n slot : Nat) (s : Store),
      ∃ evs, (migrateLoop env ctx n slot s).2.trace = s.trace ++ evs ∧
        (savedRoots evs).Nodup ∧
        (∀ r, r ∈ savedRoots evs → r ∉ s.stateRoots) ∧
        ((migrateLoop env ctx n slot s).1 = .ok →
          ∀ r, r ∈ savedRoots evs → r ∈ (migrateLoop env ctx n slot s).2.stateRoots) ∧
        (∀ j st r, (j, st, r) ∈ savedCalls evs →
          slot ≤ j ∧ j < slot + n ∧ (∃ x, st = some x ∧ StateSource env j r x) ∧
          ∃ m, migrateLoop env ctx (j - slot) slot s = (.ok, m) ∧
            HasState env m r = .ok false) := by
  intro n
  induction n with
  | zero =>
    intro slot s
    refine ⟨[], by simp [migrateLoop], by simp [savedRoots, savedCalls],
      by simp [savedRoots, savedCalls], by simp [savedRoots, savedCalls],
      by simp [savedCalls]⟩
  | succ n ih =>
    intro slot s
    obtain ⟨evs1, htr1, hcalls1⟩ := loopBody_saves env ctx slot s
    have hfb := loopBody_frame env ctx slot s
    rw [migrateLoop_succ]
    rcases hbody : loopBody env ctx slot s with ⟨o, s1⟩
    rw [hbody] at htr1 hcalls1 hfb
    simp only at htr1 hcalls1 hfb
    -- the facts about the calls of the first iteration
    have first : (savedRoots evs1).Nodup ∧
        (∀ r, r ∈ savedRoots evs1 → r ∉ s.stateRoots) ∧
        (o = .ok → ∀ r, r ∈ savedRoots evs1 → r ∈ s1.stateRoots) ∧
        (∀ j st r, (j, st, r) ∈ savedCalls evs1 →
          j = slot ∧ (∃ x, st = some x ∧ StateSource env j r x) ∧
          HasState env s r = .ok false) := by
      rcases hcalls1 with hnil | ⟨x, r, hone, hhas, hsrc, hok⟩
      · simp [savedRoots, hnil]
      · obtain ⟨-, hb⟩ := HasState_ok hhas
        have hout : r ∉ s.stateRoots := by
          have := hb.symm
          simp only [decide_eq_false_iff_not] at this
          exact this
        refine ⟨by simp [savedRoots, hone], ?_, ?_, ?_⟩
        · intro q hq
          simp only [savedRoots, hone, List.map_cons, List.map_nil, List.mem_singleton] at hq
          subst hq
          exact hout
        · intro ho q hq
          simp only [savedRoots, hone, List.map_cons, List.map_nil, List.mem_singleton] at hq
          subst hq
          exact hok ho
        · intro j st q hq
          simp only [hone, List.mem_singleton, Prod.mk.injEq] at hq
          obtain ⟨h1, h2, h3⟩ := hq
          subst h1
          subst h2
          subst h3
          exact ⟨rfl, ⟨x, rfl, hsrc⟩, hhas⟩
    obtain ⟨hnd1, hout1, hin1, hc1⟩ := first
    have hc1b : ∀ j st r, (j, st, r) ∈ savedCalls evs1 →
        slot ≤ j ∧ j < slot + (n + 1) ∧ (∃ x, st = some x ∧ StateSource env j r x) ∧
        ∃ m, migrateLoop env ctx (j - slot) slot s = (.ok, m) ∧
          HasState env m r = .ok false := by
      intro j st r hm
      obtain ⟨hj, hx, hhas⟩ := hc1 j st r hm
      subst hj
      refine ⟨Nat.le_refl _, by omega, hx, s, ?_, hhas⟩
      rw [Nat.sub_self]
      rfl
    cases o with
    | error e =>
      exact ⟨evs1, htr1, hnd1, hout1, fun h => by simp at h, hc1b⟩
    | panic =>
      exact ⟨evs1, htr1, hnd1, hout1, fun h => by simp at h, hc1b⟩
    | ok =>
      simp only []
      obtain ⟨evs2, htr2, hnd2, hout2, hin2, hc2⟩ := ih (slot + 1) s1
      have hfr := migrateLoop_frame env ctx n (slot + 1) s1
      refine ⟨evs1 ++ evs2, ?_, ?_, ?_, ?_, ?_⟩
      · rw [htr2, htr1, List.append_assoc]
      · rw [savedRoots_append]
        refine List.Nodup.append hnd1 hnd2 ?_
        intro r h1 h2
        exact hout2 r h2 (hin1 rfl r h1)
      · intro r hr
        rw [savedRoots_append] at hr
        rcases List.mem_append.1 hr with hr | hr
        · exact hout1 r hr
        · intro hs
          exact hout2 r hr (hfb.stateRoots r hs)
      · intro hok r hr
        rw [savedRoots_append] at hr
        rcases List.mem_append.1 hr with hr | hr
        · exact hfr.stateRoots r (hin1 rfl r hr)
        · exact hin2 hok r hr
      · intro j st r hm
        rw [savedCalls_append] at hm
        rcases List.mem_append.1 hm with hm | hm
        · exact hc1b j st r hm
        · obtain ⟨hlo, hhi, hx, m, hrun, hhas⟩ := hc2 j st r hm
          refine ⟨by omega, by omega, hx, m, ?_, hhas⟩
          have hj : j - slot = (j - (slot + 1)) + 1 := by omega
          rw [hj, migrateLoop_succ, hbody]
          exact hrun

/-- The trace of a migration is the trace of its slot loop followed by the
calls made after the loop, none of which is a `SaveState` or carries a loop
slot; and a migration panics only if its loop does. -/
theorem MigrateToCold_trace (env : Env) (ctx : Context) (fRoot : Nat) (s : Store) :
    ∃ fin, (MigrateToCold env ctx fRoot s).2.trace =
        (migrateLoop env ctx (loopCount env fRoot s) s.finalizedInfo.slot s).2.trace ++ fin ∧
      savedCalls fin = [] ∧ (∀ e, e ∈ fin → e.loopSlot = none) ∧
      ((MigrateToCold env ctx fRoot s).1 = .panic →
        (migrateLoop env ctx (loopCount env fRoot s) s.finalizedInfo.slot s).1 = .panic) := by
  unfold loopCount
  cases hblock : env.Block fRoot with
  | error e =>
    refine ⟨[], ?_, rfl, by simp, ?_⟩
    · unfold MigrateToCold
      simp [hblock, migrateLoop]
    · unfold MigrateToCold
      simp [hblock]
  | ok fBlock =>
    simp only []
    by_cases hgt : s.finalizedInfo.slot > fBlock.Block.Slot
    · rw [MigrateToCold_behind ctx s hblock hgt]
      have h0 : fBlock.Block.Slot - s.finalizedInfo.slot = 0 := by omega
      rw [h0]
      exact ⟨[], by simp [migrateLoop], rfl, by simp, by simp⟩
    · rw [MigrateToCold_eq ctx s hblock (by omega)]
      rcases hloop : migrateLoop env ctx (fBlock.Block.Slot - s.finalizedInfo.slot)
          s.finalizedInfo.slot s with ⟨o, s1⟩
      cases o with
      | error e => exact ⟨[], by simp, rfl, by simp, by simp⟩
      | panic => exact ⟨[], by simp, rfl, by simp, by simp⟩
      | ok =>
        simp only [finishMigration_eq]
        cases env.saveStateSummariesErr s1.stateSummaryCache with
        | some e =>
          exact ⟨[.saveStateSummaries s1.stateSummaryCache], by simp, rfl,
            by simp [Event.loopSlot], by simp⟩
        | none =>
          simp only []
          refine ⟨[.saveStateSummaries s1.stateSummaryCache, .clearSummaries,
            .getByRoot fRoot], ?_, rfl, by simp [Event.loopSlot], ?_⟩
          · cases env.getByRoot fRoot with
            | error e => simp [Store.flushed]
            | ok c => cases c <;> simp [Store.flushed]
          · cases env.getByRoot fRoot with
            | error e => simp
            | ok c => cases c <;> simp

/-- C11, exactly-once archival: in a migration no root is handed to `SaveState`
twice, none of the roots saved was persisted when the migration started, and
each `SaveState` call is made for a root that `HasState` reports absent in the
store as it stands at the start of the iteration making the call (nothing is
persisted between that point and the call). -/
theorem exactly_once_archival (env : Env) (ctx : Context) (fRoot : Nat) (s : Store) :
    ∃ evs, (MigrateToCold env ctx fRoot s).2.trace = s.trace ++ evs ∧
      (savedRoots evs).Nodup ∧
      (∀ r, r ∈ savedRoots evs → r ∉ s.stateRoots) ∧
      ∀ j st r, Event.saveState j st r ∈ evs →
        ∃ m, migrateLoop env ctx (j - s.finalizedInfo.slot) s.finalizedInfo.slot s =
            (.ok, m) ∧
          HasState env m r = .ok false := by
  obtain ⟨fin, htr, hfin, -, -⟩ := MigrateToCold_trace env ctx fRoot s
  obtain ⟨evs, hloop, hnd, hout, -, hcalls⟩ :=
    migrateLoop_saves env ctx (loopCount env fRoot s) s.finalizedInfo.slot s
  refine ⟨evs ++ fin, ?_, ?_, ?_, ?_⟩
  · rw [htr, hloop, List.append_assoc]
  · simpa [savedRoots, savedCalls_append, hfin] using hnd
  · intro r hr
    apply hout r
    simpa [savedRoots, savedCalls_append, hfin] using hr
  · intro j st r hm
    have hm2 : (j, st, r) ∈ savedCalls evs := by
      have := mem_savedCalls.1 hm
      simpa [savedCalls_append, hfin] using this
    obtain ⟨-, -, -, m, hrun, hhas⟩ := hcalls j st r hm2
    exact ⟨m, hrun, hhas⟩

/-! ## The slots the loop examines -/

/-- A call of a loop over `[lo, hi)` that carries a slot carries one of the
range. -/
theorem Event.inLoop_loopSlot {lo hi j : Nat} {e : Event} (h : e.inLoop lo hi)
    (hj : e.loopSlot = some j) : lo ≤ j ∧ j < hi := by
  cases e <;> simp only [Event.loopSlot, Option.some.injEq] at hj <;>
    first
    | (subst hj; exact h)
    | exact absurd hj (by simp)

/-- Resolving an archive point starts with the cache lookup for its slot. -/
theorem resolveArchivedPoint_head (env : Env) (k : Nat) (s : Store) :
    ∃ rest, (resolveArchivedPoint env k s).2.trace = s.trace ++ .getBySlot k :: rest := by
  obtain ⟨evs, hsnd, -⟩ := resolveArchivedPoint_snd env k s
  have hone : ∃ rest, (s.log (.getBySlot k)).trace = s.trace ++ .getBySlot k :: rest :=
    ⟨[], rfl⟩
  have htwo : ∃ rest, ((s.log (.getBySlot k)).log (.highestSlotBlocksBelow k)).trace =
      s.trace ++ .getBySlot k :: rest :=
    ⟨[.highestSlotBlocksBelow k], by simp⟩
  unfold resolveArchivedPoint
  simp only []
  cases env.getBySlot k with
  | error e => exact hone
  | ok c =>
    cases c with
    | some cached => exact hone
    | none =>
      simp only []
      cases env.HighestSlotBlocksBelow k with
      | error e => exact htwo
      | ok blks =>
        match blks with
        | [] => exact htwo
        | _ :: _ :: _ => exact htwo
        | [blk] =>
          simp only []
          cases env.HashTreeRoot blk.Block with
          | error e => exact htwo
          | ok root =>
            simp only []
            cases HasState env ((s.log (.getBySlot k)).log (.highestSlotBlocksBelow k)) root with
            | error e => exact htwo
            | ok b =>
              cases b with
              | true => exact htwo
              | false =>
                have hthree : ∃ rest, (((s.log (.getBySlot k)).log
                    (.highestSlotBlocksBelow k)).log (.stateByRoot k root)).trace =
                    s.trace ++ .getBySlot k :: rest :=
                  ⟨[.highestSlotBlocksBelow k, .stateByRoot k root], by simp⟩
                simp only []
                cases env.StateByRoot root with
                | error e => exact hthree
                | ok st => exact hthree

/-- An archive point only adds calls after those made while resolving it. -/
theorem archivedPoint_after_resolve (env : Env) (k : Nat) (s : Store) :
    ∃ more, (archivedPoint env k s).2.trace =
      (resolveArchivedPoint env k s).2.trace ++ more := by
  unfold archivedPoint
  rcases resolveArchivedPoint env k s with ⟨res, s1⟩
  cases res with
  | error e => exact ⟨[], by simp⟩
  | ok p =>
    obtain ⟨aRoot, aState⟩ := p
    simp only []
    cases HasState env s1 aRoot with
    | error e => exact ⟨[], by simp⟩
    | ok b =>
      cases b with
      | true => exact ⟨[.removeSavedStateRoot k aRoot], by simp [Store.log]⟩
      | false =>
        simp only [SaveState]
        cases aState with
        | none => exact ⟨[.saveState k none aRoot], by simp [Store.log]⟩
        | some x =>
          simp only []
          cases env.saveStateErr x aRoot with
          | some e => exact ⟨[.saveState k (some x) aRoot], by simp [Store.log]⟩
          | none =>
            exact ⟨[.saveState k (some x) aRoot, .logSaved x.slot aRoot],
              by simp [Store.log]⟩

/-- A loop that starts at an archive point with a live context looks up the
cache for that slot first. -/
theorem migrateLoop_first_lookup {env : Env} {ctx : Context} (n slot : Nat) (s : Store)
    (hc : ctx slot = none) (hap : isArchivedPoint env slot) :
    ∃ rest, (migrateLoop env ctx (n + 1) slot s).2.trace =
      s.trace ++ .getBySlot slot :: rest := by
  have hap2 : slot % env.slotsPerArchivedPoint = 0 ∧ slot ≠ 0 := hap
  have hbody : loopBody env ctx slot s = archivedPoint env slot s := by
    unfold loopBody
    simp only [hc, isArchivedPoint_interval hap, if_false, if_pos hap2]
  obtain ⟨rest1, h1⟩ := resolveArchivedPoint_head env slot s
  obtain ⟨more, h2⟩ := archivedPoint_after_resolve env slot s
  rw [migrateLoop_succ, hbody]
  rcases hstep : archivedPoint env slot s with ⟨o, s1⟩
  rw [hstep] at h2
  simp only at h2
  cases o with
  | error e => exact ⟨rest1 ++ more, by simp [h2, h1]⟩
  | panic => exact ⟨rest1 ++ more, by simp [h2, h1]⟩
  | ok =>
    simp only []
    obtain ⟨evs2, h3, -⟩ := (migrateLoop_frame env ctx n (slot + 1) s1).trace
    exact ⟨rest1 ++ more ++ evs2, by simp [h3, h2, h1]⟩

/-- C12 as stated fails at the lower end: on the small chain the snapshot is at
slot 2, an archive point, and a migration to the block at slot 3 looks up the
epoch-boundary cache for slot 2 and saves the state of slot 2. -/
theorem slot_range_counterexample :
    (demoStore 2).finalizedInfo.slot = 2 ∧ isArchivedPoint demoEnv 2 ∧
    Event.getBySlot 2 ∈ (MigrateToCold demoEnv background 3 (demoStore 2)).2.trace ∧
    Event.saveState 2 (some { slot := 2, content := 0 }) 102 ∈
      (MigrateToCold demoEnv background 3 (demoStore 2)).2.trace := by
  decide

/-- An archive point whose root resolves, is not persisted and has a state at
hand (from the cache or from `StateByRoot`) resolves to that root and
state. -/
theorem resolveArchivedPoint_fresh {env : Env} {k r : Nat} {x : BeaconState} (s : Store)
    (hres : resolvedRoot env k = some r) (herr : env.hasStateErr r = none)
    (hout : r ∉ s.stateRoots) (hsrc : StateSource env k r x) :
    ∃ evs, resolveArchivedPoint env k s =
      (.ok (r, some x), { s with trace := s.trace ++ evs }) := by
  unfold resolvedRoot at hres
  unfold resolveArchivedPoint
  simp only []
  rcases hsrc with ⟨cached, hg, hroot, hstate⟩ | ⟨hg, hst⟩
  · simp only [hg]
    subst hroot hstate
    exact ⟨[.getBySlot k], by simp [Store.log]⟩
  · simp only [hg] at hres ⊢
    cases hb : env.HighestSlotBlocksBelow k with
    | error e => simp [hb] at hres
    | ok blks =>
      match blks, hb with
      | [], hb => simp [hb] at hres
      | _ :: _ :: _, hb => simp [hb] at hres
      | [blk], hb =>
        simp only [hb] at hres ⊢
        cases hh : env.HashTreeRoot blk.Block with
        | error e => simp [hh] at hres
        | ok root =>
          simp only [hh, Option.some.injEq] at hres ⊢
          subst hres
          refine ⟨[.getBySlot k, .highestSlotBlocksBelow k, .stateByRoot k root], ?_⟩
          have hout2 : root ∉ ((s.log (.getBySlot k)).log
              (.highestSlotBlocksBelow k)).stateRoots := hout
          simp only [HasState, herr, hout2, decide_False, hst]
          simp [Store.log]

/-- An archive point whose root resolves, is not persisted and has a state at
hand calls `SaveState` for its slot with that state and root. -/
theorem archivedPoint_saves_fresh {env : Env} {k r : Nat} {x : BeaconState} (s : Store)
    (hres : resolvedRoot env k = some r) (herr : env.hasStateErr r = none)
    (hout : r ∉ s.stateRoots) (hsrc : StateSource env k r x) :
    ∃ evs rest, (archivedPoint env k s).2.trace =
      s.trace ++ evs ++ .saveState k (some x) r :: rest := by
  obtain ⟨evs, hr⟩ := resolveArchivedPoint_fresh s hres herr hout hsrc
  unfold archivedPoint
  rw [hr]
  have hout2 : r ∉ ({ s with trace := s.trace ++ evs } : Store).stateRoots := hout
  have hh : HasState env { s with trace := s.trace ++ evs } r = .ok false := by
    simp only [HasState, herr, hout2, decide_False]
  simp only [hh, SaveState]
  cases env.saveStateErr x r with
  | some e => exact ⟨evs, [], by simp [Store.log]⟩
  | none => exact ⟨evs, [.logSaved x.slot r], by simp [Store.log]⟩

/-- An archive point whose root resolves and is persisted already ends with
the removal of that root from the retention list. -/
theorem archivedPoint_removes {env : Env} {k r : Nat} (s : Store)
    (hres : resolvedRoot env k = some r) (herr : env.hasStateErr r = none)
    (hmem : r ∈ s.stateRoots) :
    ∃ evs, (archivedPoint env k s).2.trace =
      s.trace ++ evs ++ [.removeSavedStateRoot k r] := by
  obtain ⟨st, evs, hr, -⟩ := resolveArchivedPoint_durable s hres herr hmem
  refine ⟨evs, ?_⟩
  unfold archivedPoint
  rw [hr]
  have hh : HasState env { s with trace := s.trace ++ evs } r = .ok true := by
    have hm2 : r ∈ ({ s with trace := s.trace ++ evs } : Store).stateRoots := hmem
    simp only [HasState, herr, hm2, decide_True]
  simp only [hh]
  simp [Store.log]

/-- A loop that starts at an archive point with a live context runs that
archive point first; whatever follows only adds calls. -/
theorem migrateLoop_first_body {env : Env} {ctx : Context} (n slot : Nat) (s : Store)
    (hc : ctx slot = none) (hap : isArchivedPoint env slot) :
    ∃ more, (migrateLoop env ctx (n + 1) slot s).2.trace =
      (archivedPoint env slot s).2.trace ++ more := by
  have hap2 : slot % env.slotsPerArchivedPoint = 0 ∧ slot ≠ 0 := hap
  have hbody : loopBody env ctx slot s = archivedPoint env slot s := by
    unfold loopBody
    simp only [hc, isArchivedPoint_interval hap, if_false, if_pos hap2]
  rw [migrateLoop_succ, hbody]
  rcases archivedPoint env slot s with ⟨o, s1⟩
  cases o with
  | error e => exact ⟨[], by simp⟩
  | panic => exact ⟨[], by simp⟩
  | ok =>
    simp only []
    obtain ⟨evs2, h3, -⟩ := (migrateLoop_frame env ctx n (slot + 1) s1).trace
    exact ⟨evs2, h3⟩

/-- C12, amended: the slot range is inclusive at the old finalized slot and
exclusive at the new one.  Every cache lookup, block lookup, regeneration,
`SaveState` and retention removal of a migration is made for a slot `j` with
`oldFinalizedSlot <= j < newFinalizedSlot`.  When the old finalized slot is
itself an archive point below the new finalized slot and the context is not
cancelled there, the migration does look up the cache for it; and when the
root of that slot resolves and `HasState` can be read for it, the migration
removes the root from the retention list if it is persisted already, and
otherwise calls `SaveState` for that slot with the state at hand (the cache
entry's, or the one a successful `StateByRoot` returns). -/
theorem slot_range (env : Env) (ctx : Context) (fRoot : Nat) (s : Store)
    (fBlock : SignedBeaconBlock) (hblock : env.Block fRoot = .ok fBlock) :
    ∃ evs, (MigrateToCold env ctx fRoot s).2.trace = s.trace ++ evs ∧
      (∀ e, e ∈ evs → ∀ j, e.loopSlot = some j →
        s.finalizedInfo.slot ≤ j ∧ j < fBlock.Block.Slot) ∧
      (isArchivedPoint env s.finalizedInfo.slot →
        s.finalizedInfo.slot < fBlock.Block.Slot → ctx s.finalizedInfo.slot = none →
        Event.getBySlot s.finalizedInfo.slot ∈ evs ∧
        ∀ r, resolvedRoot env s.finalizedInfo.slot = some r → env.hasStateErr r = none →
          (r ∈ s.stateRoots → Event.removeSavedStateRoot s.finalizedInfo.slot r ∈ evs) ∧
          (r ∉ s.stateRoots → ∀ x, StateSource env s.finalizedInfo.slot r x →
            Event.saveState s.finalizedInfo.slot (some x) r ∈ evs)) := by
  obtain ⟨fin, htr, -, hfin, -⟩ := MigrateToCold_trace env ctx fRoot s
  have hcount : loopCount env fRoot s = fBlock.Block.Slot - s.finalizedInfo.slot := by
    unfold loopCount
    rw [hblock]
  rw [hcount] at htr
  obtain ⟨evs1, h1, hin⟩ :=
    (migrateLoop_frame env ctx (fBlock.Block.Slot - s.finalizedInfo.slot)
      s.finalizedInfo.slot s).trace
  refine ⟨evs1 ++ fin, by rw [htr, h1, List.append_assoc], ?_, ?_⟩
  · intro e he j hj
    rcases List.mem_append.1 he with he | he
    · have := Event.inLoop_loopSlot (hin e he) hj
      omega
    · rw [hfin e he] at hj
      exact absurd hj (by simp)
  · intro hap hlt hc
    have hn : fBlock.Block.Slot - s.finalizedInfo.slot =
        (fBlock.Block.Slot - s.finalizedInfo.slot - 1) + 1 := by omega
    obtain ⟨more, hbody⟩ := @migrateLoop_first_body env ctx
      (fBlock.Block.Slot - s.finalizedInfo.slot - 1) s.finalizedInfo.slot s hc hap
    rw [← hn, h1] at hbody
    refine ⟨?_, ?_⟩
    · obtain ⟨rest, h2⟩ := @migrateLoop_first_lookup env ctx
        (fBlock.Block.Slot - s.finalizedInfo.slot - 1) s.finalizedInfo.slot s hc hap
      rw [← hn, h1] at h2
      have := List.append_cancel_left h2
      rw [this]
      simp
    · intro r hres herr
      refine ⟨?_, ?_⟩
      · intro hmem
        obtain ⟨evs2, h2⟩ := archivedPoint_removes s hres herr hmem
        rw [h2, List.append_assoc, List.append_assoc] at hbody
        have := List.append_cancel_left hbody
        rw [this]
        simp
      · intro hout x hsrc
        obtain ⟨evs2, rest, h2⟩ := archivedPoint_saves_fresh s hres herr hout hsrc
        rw [h2, List.append_assoc, List.append_assoc] at hbody
        have := List.append_cancel_left hbody
        rw [this]
        simp

/-- C12 amended, on the small chain, with the snapshot at slot 2 and the
finalized block at slot 3: the migration looks up the cache for slot 2 and
saves the state of slot 2; and when the lookup fails, it has still been
made. -/
theorem slot_range_witness :
    (∃ evs, (MigrateToCold demoEnv background 3 (demoStore 2)).2.trace =
        (demoStore 2).trace ++ evs ∧
      Event.getBySlot 2 ∈ evs ∧
      Event.saveState 2 (some { slot := 2, content := 0 }) 102 ∈ evs) ∧
    (∃ evs, (MigrateToCold demoEnvLookupFails background 3 (demoStore 2)).2.trace =
        (demoStore 2).trace ++ evs ∧
      Event.getBySlot 2 ∈ evs) := by
  constructor
  · obtain ⟨evs, htr, -, hold⟩ :=
      slot_range demoEnv background 3 (demoStore 2) (demoBlock 3) rfl
    obtain ⟨hlook, hact⟩ := hold (by decide) (by decide) rfl
    refine ⟨evs, htr, hlook, ?_⟩
    exact (hact 102 (by decide) rfl).2 (by decide) { slot := 2, content := 0 }
      (Or.inl ⟨{ root := 102, state := { slot := 2, content := 0 } }, rfl, rfl, rfl⟩)
  · obtain ⟨evs, htr, -, hold⟩ :=
      slot_range demoEnvLookupFails background 3 (demoStore 2) (demoBlock 3) rfl
    exact ⟨evs, htr, (hold (by decide) (by decide) rfl).1⟩

/-! ## The state handed to `SaveState` -/

/-- A resolved archive point whose state is left nil missed the cache and its
root is persisted. -/
theorem resolveArchivedPoint_nil {env : Env} {k : Nat} {s : Store} {r : Nat}
    (h : (resolveArchivedPoint env k s).1 = .ok (r, none)) :
    env.getBySlot k = .ok none ∧ HasState env s r = .ok true := by
  obtain ⟨-, hnil, herr⟩ := resolveArchivedPoint_ok h
  have hmiss : env.getBySlot k = .ok none := by
    unfold resolveArchivedPoint at h
    simp only [] at h
    cases hg : env.getBySlot k with
    | error e => simp [hg] at h
    | ok c =>
      cases c with
      | some cached => simp [hg] at h
      | none => rfl
  refine ⟨hmiss, ?_⟩
  simp only [HasState, herr hmiss, hnil rfl, decide_True]

/-- C17, state presence at persistence: every `SaveState` call of a migration is
made with a state that is present, the epoch-boundary cache entry's state or
the state a successful `StateByRoot` returned.  An archive point resolved with
the state left nil (cache miss, root already persisted) ends normally through
the already-durable skip, with no `SaveState` call and no log line.  A
migration reads no nil state: it panics only on a zero archive interval. -/
theorem state_present_at_save (env : Env) (ctx : Context) (fRoot : Nat) (s : Store) :
    (∃ evs, (MigrateToCold env ctx fRoot s).2.trace = s.trace ++ evs ∧
      ∀ j st r, Event.saveState j st r ∈ evs → ∃ x, st = some x ∧ StateSource env j r x) ∧
    (∀ (k : Nat) (s1 : Store) (r : Nat),
      (resolveArchivedPoint env k s1).1 = .ok (r, none) →
      (archivedPoint env k s1).1 = .ok ∧
      ∃ evs, (archivedPoint env k s1).2.trace = s1.trace ++ evs ∧
        ∀ e, e ∈ evs → (∀ j st q, e ≠ .saveState j st q) ∧ (∀ a q, e ≠ .logSaved a q)) ∧
    ((MigrateToCold env ctx fRoot s).1 = .panic → env.slotsPerArchivedPoint = 0) := by
  obtain ⟨fin, htr, hfin, -, hpanic⟩ := MigrateToCold_trace env ctx fRoot s
  obtain ⟨evs, hloop, -, -, -, hcalls⟩ :=
    migrateLoop_saves env ctx (loopCount env fRoot s) s.finalizedInfo.slot s
  refine ⟨⟨evs ++ fin, by rw [htr, hloop, List.append_assoc], ?_⟩, ?_, ?_⟩
  · intro j st r hm
    have hm2 : (j, st, r) ∈ savedCalls evs := by
      have := mem_savedCalls.1 hm
      simpa [savedCalls_append, hfin] using this
    exact (hcalls j st r hm2).2.2.1
  · intro k s1 r hres
    obtain ⟨hroot, -, -⟩ := resolveArchivedPoint_ok hres
    obtain ⟨-, hhas⟩ := resolveArchivedPoint_nil hres
    obtain ⟨herr, hb⟩ := HasState_ok hhas
    have hmem : r ∈ s1.stateRoots := by
      have := hb.symm
      simp only [decide_eq_true_eq] at this
      exact this
    obtain ⟨evs2, hstep, hev⟩ := archivedPoint_durable s1 hroot herr hmem
    rw [hstep]
    refine ⟨rfl, evs2, rfl, ?_⟩
    intro e he
    rcases hev e he with h | h | h <;> subst h <;> simp
  · intro hp
    by_contra h0
    exact migrateLoop_ne_panic ctx h0 _ _ s (hpanic hp)

/-! ## The LRU cache -/

theorem Key.eq_ofEpoch {k : Key} (h : k.dyn = .Epoch) : k = Key.ofEpoch k.val := by
  cases k
  simp only [Key.ofEpoch] at h ⊢
  subst h
  rfl

/-- For entries stored as epochs, having the key of an epoch is having its
value. -/
theorem Entry.key_eq_iff {e : Entry} (h : e.key.dyn = .Epoch) (epoch : Nat) :
    e.key = Key.ofEpoch epoch ↔ e.key.val = epoch := by
  constructor
  · intro hk
    rw [hk]
    rfl
  · intro hv
    rw [Key.eq_ofEpoch h, hv]

theorem LruCache.WF.contains_iff {c : LruCache} (h : c.WF) (epoch : Nat) :
    c.Contains (Key.ofEpoch epoch) = true ↔ epoch ∈ c.epochs := by
  simp only [LruCache.Contains, List.any_eq_true, decide_eq_true_eq, LruCache.epochs,
    List.mem_map]
  constructor
  · rintro ⟨e, he, hk⟩
    exact ⟨e, he, (Entry.key_eq_iff (h.typed e he) epoch).1 hk⟩
  · rintro ⟨e, he, hv⟩
    exact ⟨e, he, (Entry.key_eq_iff (h.typed e he) epoch).2 hv⟩

/-- A freshly built LRU cache is well formed and empty. -/
theorem NewWithEvict_ok {size : Int} {c : LruCache} (h : NewWithEvict size = .ok c) :
    c.WF ∧ c.items = [] ∧ c.evicted = [] ∧ c.size = size := by
  unfold NewWithEvict at h
  by_cases hs : size ≤ 0
  · simp [hs] at h
  · simp only [hs, if_false, Except.ok.injEq] at h
    subst h
    refine ⟨⟨by simp [LruCache.epochs], by simp, by simp, by simp, by simp,
      by simp only; omega, ?_⟩,
      rfl, rfl, rfl⟩
    simp only [List.length_nil]
    omega

/-- Moving the entry of a key that is present to the front, with the current
clock as its stamp, keeps the cache well formed and its epochs the same set. -/
theorem LruCache.WF.touch {c : LruCache} (h : c.WF) (epoch : Nat)
    (e1 : Entry) (hkey : e1.key = Key.ofEpoch epoch) (hstamp : e1.stamp = c.clock)
    (hval : e1.value ≠ none) (hin : epoch ∈ c.epochs) :
    (c.moveToFront e1 (Key.ofEpoch epoch)).WF := by
  unfold LruCache.moveToFront
  have hsub : (c.items.filter (fun e => decide (e.key ≠ Key.ofEpoch epoch))).Sublist c.items :=
    List.filter_sublist _
  have hmemf : ∀ e, e ∈ c.items.filter (fun e => decide (e.key ≠ Key.ofEpoch epoch)) →
      e ∈ c.items ∧ e.key.val ≠ epoch := by
    intro e he
    have hm := List.mem_filter.1 he
    refine ⟨hm.1, ?_⟩
    have hne : e.key ≠ Key.ofEpoch epoch := by simpa using hm.2
    intro hv
    exact hne ((Entry.key_eq_iff (h.typed e hm.1) epoch).2 hv)
  refine ⟨?_, ?_, ?_, ?_, ?_, h.positive, ?_⟩
  · simp only [LruCache.epochs, List.map_cons, List.nodup_cons, List.mem_map, not_exists,
      not_and]
    refine ⟨?_, ?_⟩
    · intro e he hv
      rw [hkey] at hv
      exact (hmemf e he).2 hv
    · exact List.Nodup.sublist (List.Sublist.map _ hsub) h.keys
  · simp only [List.pairwise_cons]
    refine ⟨?_, List.Pairwise.sublist hsub h.recency⟩
    intro e he
    rw [hstamp]
    exact h.stamps e (hmemf e he).1
  · intro e he
    simp only [List.mem_cons] at he
    rcases he with he | he
    · subst he
      simp only [hstamp]
      omega
    · have := h.stamps e (hmemf e he).1
      simp only
      omega
  · intro e he
    simp only [List.mem_cons] at he
    rcases he with he | he
    · subst he
      rw [hkey]
      rfl
    · exact h.typed e (hmemf e he).1
  · intro e he
    simp only [List.mem_cons] at he
    rcases he with he | he
    · subst he
      exact hval
    · exact h.values e (hmemf e he).1
  · have hlt : (c.items.filter (fun e => decide (e.key ≠ Key.ofEpoch epoch))).length <
        c.items.length := by
      rw [List.length_filter_lt_length_iff_exists]
      simp only [LruCache.epochs, List.mem_map] at hin
      obtain ⟨e, he, hv⟩ := hin
      refine ⟨e, he, ?_⟩
      simp only [ne_eq, decide_not, Bool.not_eq_true', decide_eq_false_iff_not, not_not]
      exact (Entry.key_eq_iff (h.typed e he) epoch).2 hv
    have hb := h.bounded
    simp only [List.length_cons]
    omega

/-- The epochs after a touch are the epoch touched and the others. -/
theorem LruCache.moveToFront_epochs (c : LruCache) (epoch : Nat) (e1 : Entry)
    (hkey : e1.key = Key.ofEpoch epoch) (hin : epoch ∈ c.epochs) (q : Nat) :
    q ∈ (c.moveToFront e1 (Key.ofEpoch epoch)).epochs ↔ q ∈ c.epochs := by
  simp only [LruCache.moveToFront, LruCache.epochs, List.map_cons, List.mem_cons, List.mem_map, List.mem_filter,
    ne_eq, decide_not, Bool.not_eq_true', decide_eq_false_iff_not]
  constructor
  · rintro (hq | ⟨e, ⟨he, -⟩, hv⟩)
    · rw [hq, hkey]
      simpa [LruCache.epochs, Key.ofEpoch] using hin
    · exact ⟨e, he, hv⟩
  · rintro ⟨e, he, hv⟩
    by_cases hq : q = epoch
    · left
      rw [hq, hkey]
      rfl
    · right
      refine ⟨e, ⟨he, ?_⟩, hv⟩
      intro hk
      apply hq
      rw [← hv, hk]
      rfl

/-- Inserting a new epoch at the front keeps the cache well formed as long as
there is room. -/
theorem LruCache.WF.pushFront {c : LruCache} (h : c.WF) (e1 : Entry)
    (hdyn : e1.key.dyn = .Epoch) (hstamp : e1.stamp = c.clock) (hval : e1.value ≠ none)
    (hnew : e1.key.val ∉ c.epochs) (hroom : (c.items.length : Int) < c.size) :
    (c.pushFront e1).WF := by
  unfold LruCache.pushFront
  refine ⟨?_, ?_, ?_, ?_, ?_, h.positive, ?_⟩
  · simp only [LruCache.epochs, List.map_cons, List.nodup_cons]
    exact ⟨hnew, h.keys⟩
  · simp only [List.pairwise_cons]
    refine ⟨?_, h.recency⟩
    intro e he
    rw [hstamp]
    exact h.stamps e he
  · intro e he
    simp only [List.mem_cons] at he
    rcases he with he | he
    · subst he
      simp only [hstamp]
      omega
    · have := h.stamps e he
      simp only
      omega
  · intro e he
    simp only [List.mem_cons] at he
    rcases he with he | he
    · subst he
      exact hdyn
    · exact h.typed e he
  · intro e he
    simp only [List.mem_cons] at he
    rcases he with he | he
    · subst he
      exact hval
    · exact h.values e he
  · simp only [List.length_cons]
    push_cast
    omega

/-- A well-formed cache stays well formed when sublisted entries are kept. -/
theorem LruCache.WF.dropLast {c : LruCache} (e1 : Entry)
    (hdyn : e1.key.dyn = .Epoch) (hstamp : e1.stamp = c.clock) (hval : e1.value ≠ none)
    (hnew : e1.key.val ∉ c.epochs) (h : c.WF) (ev : List (Key × Option EpochSpans)) :
    LruCache.WF { c.pushFront e1 with items := (c.pushFront e1).items.dropLast,
                                      evicted := ev } := by
  have hsub : (e1 :: c.items).dropLast.Sublist (e1 :: c.items) := List.dropLast_sublist _
  have hmem : ∀ e, e ∈ (e1 :: c.items).dropLast → e = e1 ∨ e ∈ c.items := by
    intro e he
    simpa using hsub.subset he
  unfold LruCache.pushFront
  refine ⟨?_, ?_, ?_, ?_, ?_, h.positive, ?_⟩
  · have hnd : (List.map (fun e => e.key.val) (e1 :: c.items)).Nodup := by
      simp only [List.map_cons, List.nodup_cons]
      exact ⟨hnew, h.keys⟩
    exact List.Nodup.sublist (List.Sublist.map _ hsub) hnd
  · have hp : (e1 :: c.items).Pairwise (fun a b => b.stamp < a.stamp) := by
      simp only [List.pairwise_cons]
      refine ⟨?_, h.recency⟩
      intro e he
      rw [hstamp]
      exact h.stamps e he
    exact List.Pairwise.sublist hsub hp
  · intro e he
    rcases hmem e he with he | he
    · subst he
      simp only [hstamp]
      omega
    · have := h.stamps e he
      simp only
      omega
  · intro e he
    rcases hmem e he with he | he
    · subst he
      exact hdyn
    · exact h.typed e he
  · intro e he
    rcases hmem e he with he | he
    · subst he
      exact hval
    · exact h.values e he
  · have hb := h.bounded
    simp only [List.length_dropLast, List.length_cons, Nat.add_sub_cancel]
    exact hb

/-- The three cases of `Add` on a well-formed cache: the epoch is present and
its entry moves to the front; it is new and there is room; it is new, the
cache is full, and the least recently used entry is evicted. -/
theorem LruCache.WF.Add_cases {c : LruCache} (h : c.WF) (epoch : Nat) (m : EpochSpans) :
    (epoch ∈ c.epochs ∧
      c.Add (Key.ofEpoch epoch) (some m) =
        (c.moveToFront { key := Key.ofEpoch epoch, value := some m, stamp := c.clock }
          (Key.ofEpoch epoch), false)) ∨
    (epoch ∉ c.epochs ∧ (c.items.length : Int) < c.size ∧
      c.Add (Key.ofEpoch epoch) (some m) =
        (c.pushFront { key := Key.ofEpoch epoch, value := some m, stamp := c.clock },
          false)) ∨
    (epoch ∉ c.epochs ∧ (c.items.length : Int) = c.size ∧
      ∃ old, c.items.getLast? = some old ∧
        c.Add (Key.ofEpoch epoch) (some m) =
          ({ c.pushFront { key := Key.ofEpoch epoch, value := some m, stamp := c.clock } with
              items := (c.pushFront
                { key := Key.ofEpoch epoch, value := some m, stamp := c.clock }).items.dropLast,
              evicted := c.evicted ++ [(old.key, old.value)] }, true)) := by
  by_cases hin : epoch ∈ c.epochs
  · left
    refine ⟨hin, ?_⟩
    unfold LruCache.Add
    rw [if_pos ((h.contains_iff epoch).2 hin)]
  · right
    have hnc : ¬ (c.Contains (Key.ofEpoch epoch) = true) := fun hc =>
      hin ((h.contains_iff epoch).1 hc)
    have hb := h.bounded
    by_cases hroom : (c.items.length : Int) < c.size
    · left
      refine ⟨hin, hroom, ?_⟩
      unfold LruCache.Add
      rw [if_neg hnc]
      simp only [LruCache.pushFront, List.length_cons]
      rw [if_neg]
      push_cast
      omega
    · right
      have hfull : (c.items.length : Int) = c.size := by omega
      have hne : c.items ≠ [] := by
        intro hnil
        have hp := h.positive
        rw [hnil] at hfull
        simp only [List.length_nil] at hfull
        omega
      obtain ⟨old, hold⟩ : ∃ old, c.items.getLast? = some old := by
        cases hl : c.items.getLast? with
        | none => exact absurd (List.getLast?_eq_none_iff.1 hl) hne
        | some old => exact ⟨old, rfl⟩
      refine ⟨hin, hfull, old, hold, ?_⟩
      unfold LruCache.Add
      rw [if_neg hnc]
      simp only [LruCache.pushFront, List.length_cons]
      rw [if_pos (by push_cast; omega)]
      unfold LruCache.removeOldest
      have hlast : (({ key := Key.ofEpoch epoch, value := some m, stamp := c.clock } : Entry) ::
          c.items).getLast? = some old := by
        cases hi : c.items with
        | nil => exact absurd hi hne
        | cons a l =>
          rw [hi] at hold
          simpa using hold
      simp only [hlast]
/-- The two cases of `Get` on a well-formed cache: a hit moves the entry to the
front, a miss changes nothing. -/
theorem LruCache.WF.Get_cases {c : LruCache} (h : c.WF) (epoch : Nat) :
    (epoch ∈ c.epochs ∧ ∃ e, e ∈ c.items ∧ e.key = Key.ofEpoch epoch ∧
      c.Get (Key.ofEpoch epoch) =
        (c.moveToFront { e with stamp := c.clock } (Key.ofEpoch epoch), e.value, true)) ∨
    (epoch ∉ c.epochs ∧ c.Get (Key.ofEpoch epoch) = (c, none, false)) := by
  unfold LruCache.Get
  cases hf : c.items.find? (fun e => decide (e.key = Key.ofEpoch epoch)) with
  | some e =>
    left
    have hmem := List.mem_of_find?_eq_some hf
    have hkey : e.key = Key.ofEpoch epoch := by simpa using List.find?_some hf
    refine ⟨?_, e, hmem, hkey, rfl⟩
    simp only [LruCache.epochs, List.mem_map]
    exact ⟨e, hmem, by rw [hkey]; rfl⟩
  | none =>
    right
    refine ⟨?_, rfl⟩
    intro hin
    simp only [LruCache.epochs, List.mem_map] at hin
    obtain ⟨e, he, hv⟩ := hin
    have := List.find?_eq_none.1 hf e he
    simp only [decide_eq_true_eq] at this
    exact this ((Entry.key_eq_iff (h.typed e he) epoch).2 hv)

/-- One call keeps the wrapped cache well formed and its capacity the same. -/
theorem lruStep_WF {c : LruCache} (h : c.WF) (op : CacheOp) :
    (lruStep op c).WF ∧ (lruStep op c).size = c.size := by
  cases op with
  | set epoch m =>
    simp only [lruStep]
    rcases h.Add_cases epoch m with ⟨hin, heq⟩ | ⟨hout, hroom, heq⟩ | ⟨hout, hfull, old, -, heq⟩
    · rw [heq]
      exact ⟨h.touch epoch _ rfl rfl (by simp) hin, rfl⟩
    · rw [heq]
      exact ⟨h.pushFront _ rfl rfl (by simp) hout hroom, rfl⟩
    · rw [heq]
      exact ⟨LruCache.WF.dropLast _ rfl rfl (by simp) hout h _, rfl⟩
  | get epoch =>
    simp only [lruStep]
    rcases h.Get_cases epoch with ⟨hin, e, he, hkey, heq⟩ | ⟨-, heq⟩
    · rw [heq]
      exact ⟨h.touch epoch _ hkey rfl (h.values e he) hin, rfl⟩
    · rw [heq]
      exact ⟨h, rfl⟩

theorem lruRun_cons (op : CacheOp) (ops : List CacheOp) (c : LruCache) :
    lruRun (op :: ops) c = lruRun ops (lruStep op c) := rfl

theorem lruRun_append (ops : List CacheOp) (op : CacheOp) (c : LruCache) :
    lruRun (ops ++ [op]) c = lruStep op (lruRun ops c) := by
  simp [lruRun, List.foldl_append]

/-- Any sequence of calls keeps the wrapped cache well formed, so its occupancy
never exceeds its capacity. -/
theorem lruRun_WF : ∀ (ops : List CacheOp) {c : LruCache}, c.WF →
    (lruRun ops c).WF ∧ (lruRun ops c).size = c.size := by
  intro ops
  induction ops with
  | nil => intro c h; exact ⟨h, rfl⟩
  | cons op ops ih =>
    intro c h
    obtain ⟨h1, hs1⟩ := lruStep_WF h op
    obtain ⟨h2, hs2⟩ := ih h1
    rw [lruRun_cons]
    exact ⟨h2, hs2.trans hs1⟩

/-- The wrapped cache after one call of the public interface. -/
theorem CacheOp.apply_cache (op : CacheOp) (st : EpochSpansCache × Pkg) :
    (op.apply st).1.cache = lruStep op st.1.cache ∧
      (op.apply st).2.epochSpansCacheSize = st.2.epochSpansCacheSize := by
  obtain ⟨c, pkg⟩ := st
  cases op with
  | set epoch m => exact ⟨rfl, rfl⟩
  | get epoch =>
    simp only [CacheOp.apply, EpochSpansCache.Get, lruStep]
    rcases c.cache.Get (Key.ofEpoch epoch) with ⟨c1, v, b⟩
    cases v with
    | none => exact ⟨rfl, rfl⟩
    | some m =>
      cases b with
      | true => exact ⟨rfl, rfl⟩
      | false => exact ⟨rfl, rfl⟩

/-- The wrapped cache after a sequence of calls; the calls leave the
package-level capacity alone. -/
theorem runOps_cache : ∀ (ops : List CacheOp) (st : EpochSpansCache × Pkg),
    (runOps ops st).1.cache = lruRun ops st.1.cache ∧
      (runOps ops st).2.epochSpansCacheSize = st.2.epochSpansCacheSize := by
  intro ops
  induction ops with
  | nil => intro st; exact ⟨rfl, rfl⟩
  | cons op ops ih =>
    intro st
    obtain ⟨h1, h2⟩ := ih (op.apply st)
    obtain ⟨h3, h4⟩ := op.apply_cache st
    have hrun : runOps (op :: ops) st = runOps ops (op.apply st) := rfl
    rw [hrun, lruRun_cons, h1, h2, h3, h4]
    exact ⟨rfl, rfl⟩

/-- A cache that `NewEpochSpansCache` returns is well formed and empty, and its
capacity is the package-level capacity after the call. -/
theorem NewEpochSpansCache_ok {size : Int} {pkg0 pkg1 : Pkg} {c0 : EpochSpansCache}
    (h : NewEpochSpansCache size pkg0 = (.ok c0, pkg1)) :
    c0.cache.WF ∧ c0.cache.items = [] ∧ c0.cache.evicted = [] ∧
      c0.cache.size = pkg1.epochSpansCacheSize := by
  unfold NewEpochSpansCache at h
  generalize (if size ≠ 0 then { pkg0 with epochSpansCacheSize := size } else pkg0 : Pkg) = p
    at h
  simp only [] at h
  cases hn : NewWithEvict p.epochSpansCacheSize with
  | error err => simp [hn] at h
  | ok cache =>
    simp only [hn, Prod.mk.injEq, Except.ok.injEq] at h
    obtain ⟨h1, h2⟩ := h
    subst h1 h2
    obtain ⟨hwf, hi, he, hs⟩ := NewWithEvict_ok hn
    exact ⟨hwf, hi, he, hs⟩

/-- The number of epochs of a well-formed cache is its occupancy. -/
theorem LruCache.WF.card_epochs {c : LruCache} (h : c.WF) :
    c.epochs.toFinset.card = c.items.length := by
  rw [List.toFinset_card_of_nodup h.keys]
  simp [LruCache.epochs]

/-- Filling a cache: as long as the epochs held and the epochs set fit in the
capacity together, a sequence of calls evicts nothing and the cache ends up
holding exactly those epochs. -/
theorem lruRun_fill : ∀ (ops : List CacheOp) (c : LruCache), c.WF →
    ((c.epochs.toFinset ∪ (setKeys ops).toFinset).card : Int) ≤ c.size →
    (lruRun ops c).evicted = c.evicted ∧
      (lruRun ops c).epochs.toFinset = c.epochs.toFinset ∪ (setKeys ops).toFinset := by
  intro ops
  induction ops with
  | nil =>
    intro c _ _
    simp [lruRun, setKeys]
  | cons op ops ih =>
    intro c h hcard
    rw [lruRun_cons]
    cases op with
    | set epoch m =>
      simp only [setKeys, List.toFinset_cons] at hcard ⊢
      simp only [lruStep]
      rcases h.Add_cases epoch m with ⟨hin, heq⟩ | ⟨hout, hroom, heq⟩ |
        ⟨hout, hfull, -, -, -⟩
      · rw [heq]
        have hwf := h.touch epoch
          { key := Key.ofEpoch epoch, value := some m, stamp := c.clock } rfl rfl (by simp) hin
        have hep : (c.moveToFront
            { key := Key.ofEpoch epoch, value := some m, stamp := c.clock }
            (Key.ofEpoch epoch)).epochs.toFinset = c.epochs.toFinset := by
          ext q
          simp only [List.mem_toFinset]
          exact c.moveToFront_epochs epoch _ rfl hin q
        have hun : c.epochs.toFinset ∪ insert epoch (setKeys ops).toFinset =
            c.epochs.toFinset ∪ (setKeys ops).toFinset := by
          ext q
          simp only [Finset.mem_union, Finset.mem_insert, List.mem_toFinset]
          constructor
          · rintro (hq | hq | hq)
            · exact Or.inl hq
            · exact Or.inl (hq ▸ hin)
            · exact Or.inr hq
          · rintro (hq | hq)
            · exact Or.inl hq
            · exact Or.inr (Or.inr hq)
        rw [hun] at hcard ⊢
        obtain ⟨h1, h2⟩ := ih _ hwf (by rw [hep]; exact hcard)
        rw [h1, h2, hep]
        exact ⟨rfl, rfl⟩
      · rw [heq]
        have hwf := h.pushFront
          { key := Key.ofEpoch epoch, value := some m, stamp := c.clock } rfl rfl (by simp)
          hout hroom
        have hep : (c.pushFront
            { key := Key.ofEpoch epoch, value := some m, stamp := c.clock }).epochs.toFinset =
            insert epoch c.epochs.toFinset := by
          simp [LruCache.pushFront, LruCache.epochs, Key.ofEpoch]
        have hun : insert epoch c.epochs.toFinset ∪ (setKeys ops).toFinset =
            c.epochs.toFinset ∪ insert epoch (setKeys ops).toFinset := by
          ext q
          simp only [Finset.mem_union, Finset.mem_insert]
          tauto
        obtain ⟨h1, h2⟩ := ih _ hwf (by rw [hep, hun]; exact hcard)
        rw [h1, h2, hep, hun]
        exact ⟨rfl, rfl⟩
      · exfalso
        have hsub : insert epoch c.epochs.toFinset ⊆
            c.epochs.toFinset ∪ insert epoch (setKeys ops).toFinset := by
          intro q hq
          simp only [Finset.mem_union, Finset.mem_insert] at hq ⊢
          tauto
        have hle := Finset.card_le_card hsub
        have hnot : epoch ∉ c.epochs.toFinset := by simpa using hout
        rw [Finset.card_insert_of_not_mem hnot, h.card_epochs] at hle
        omega
    | get epoch =>
      simp only [setKeys] at hcard ⊢
      simp only [lruStep]
      rcases h.Get_cases epoch with ⟨hin, e, he, hkey, heq⟩ | ⟨-, heq⟩
      · rw [heq]
        have hwf := h.touch epoch { e with stamp := c.clock } hkey rfl (h.values e he) hin
        have hep : (c.moveToFront { e with stamp := c.clock }
            (Key.ofEpoch epoch)).epochs.toFinset = c.epochs.toFinset := by
          ext q
          simp only [List.mem_toFinset]
          exact c.moveToFront_epochs epoch _ hkey hin q
        obtain ⟨h1, h2⟩ := ih _ hwf (by rw [hep]; exact hcard)
        rw [h1, h2, hep]
        exact ⟨rfl, rfl⟩
      · rw [heq]
        exact ih c h hcard

/-! ## The epoch spans cache -/

/-- Evicting from a full well-formed cache on the insertion of a new epoch: the
entry evicted is the one accessed least recently, it is gone afterwards, the
new epoch is present and the occupancy is unchanged. -/
theorem LruCache.WF.Add_full {c : LruCache} (h : c.WF) (epoch : Nat) (m : EpochSpans)
    (hout : epoch ∉ c.epochs) (hfull : (c.items.length : Int) = c.size) :
    ∃ old, old ∈ c.items ∧ (∀ e, e ∈ c.items → old.stamp ≤ e.stamp) ∧
      (c.Add (Key.ofEpoch epoch) (some m)).1.evicted = c.evicted ++ [(old.key, old.value)] ∧
      (c.Add (Key.ofEpoch epoch) (some m)).1.Contains (Key.ofEpoch old.key.val) = false ∧
      (c.Add (Key.ofEpoch epoch) (some m)).1.Contains (Key.ofEpoch epoch) = true ∧
      (c.Add (Key.ofEpoch epoch) (some m)).1.items.length = c.items.length := by
  rcases h.Add_cases epoch m with ⟨hin, -⟩ | ⟨-, hroom, -⟩ | ⟨-, -, old, hold, heq⟩
  · exact absurd hin hout
  · omega
  · have hsplit : c.items.dropLast ++ [old] = c.items :=
      List.dropLast_append_getLast? old hold
    have hmem : old ∈ c.items := List.mem_of_getLast?_eq_some hold
    have hne : c.items ≠ [] := List.ne_nil_of_mem hmem
    have hwf2 : (c.Add (Key.ofEpoch epoch) (some m)).1.WF :=
      (lruStep_WF h (.set epoch m)).1
    have hitems : (c.Add (Key.ofEpoch epoch) (some m)).1.items =
        { key := Key.ofEpoch epoch, value := some m, stamp := c.clock } :: c.items.dropLast := by
      rw [heq]
      simp only [LruCache.pushFront]
      exact List.dropLast_cons_of_ne_nil hne
    have hep2 : (c.Add (Key.ofEpoch epoch) (some m)).1.epochs =
        epoch :: c.items.dropLast.map (fun e => e.key.val) := by
      simp only [LruCache.epochs, hitems, List.map_cons]
      rfl
    have hrec := h.recency
    rw [← hsplit, List.pairwise_append] at hrec
    have hkeys := h.keys
    simp only [LruCache.epochs] at hkeys
    rw [← hsplit, List.map_append, List.nodup_append] at hkeys
    refine ⟨old, hmem, ?_, by rw [heq], ?_, ?_, ?_⟩
    · intro e he
      rw [← hsplit] at he
      rcases List.mem_append.1 he with he | he
      · exact Nat.le_of_lt (hrec.2.2 e he old (by simp))
      · simp only [List.mem_singleton] at he
        rw [he]
    · cases hc : (c.Add (Key.ofEpoch epoch) (some m)).1.Contains (Key.ofEpoch old.key.val) with
      | false => rfl
      | true =>
        exfalso
        have hin := (hwf2.contains_iff old.key.val).1 hc
        rw [hep2, List.mem_cons] at hin
        rcases hin with hin | hin
        · apply hout
          rw [← hin]
          simp only [LruCache.epochs, List.mem_map]
          exact ⟨old, hmem, rfl⟩
        · exact hkeys.2.2 hin (by simp)
    · apply (hwf2.contains_iff epoch).2
      rw [hep2]
      exact List.mem_cons_self _ _
    · rw [hitems]
      simp only [List.length_cons, List.length_dropLast]
      have : 0 < c.items.length := List.length_pos.2 hne
      omega

/-- C14, LRU order: on a cache of capacity N built by `NewEpochSpansCache`, any
sequence of `Set` and `Get` calls that sets N distinct epochs evicts nothing
and fills the cache; the `Set` of one more epoch then evicts exactly one entry,
the one whose last access is the oldest, invokes the eviction callback with its
key and value, and leaves the occupancy at N.  The occupancy never exceeds the
capacity, whatever the calls. -/
theorem lru_order (size : Int) (pkg0 pkg1 : Pkg) (c0 : EpochSpansCache)
    (hnew : NewEpochSpansCache size pkg0 = (.ok c0, pkg1))
    (ops : List CacheOp) (epoch : Nat) (m : EpochSpans)
    (hdistinct : ((setKeys ops).toFinset.card : Int) = c0.cache.size)
    (hfresh : epoch ∉ setKeys ops) :
    (runOps ops (c0, pkg1)).1.cache.evicted = [] ∧
    ((runOps ops (c0, pkg1)).1.cache.Len : Int) = c0.cache.size ∧
    (∃ old, old ∈ (runOps ops (c0, pkg1)).1.cache.items ∧
      (∀ e, e ∈ (runOps ops (c0, pkg1)).1.cache.items → old.stamp ≤ e.stamp) ∧
      ((runOps ops (c0, pkg1)).1.Set epoch m).cache.evicted = [(old.key, old.value)] ∧
      ((runOps ops (c0, pkg1)).1.Set epoch m).Has old.key.val = false ∧
      ((runOps ops (c0, pkg1)).1.Set epoch m).Has epoch = true ∧
      (((runOps ops (c0, pkg1)).1.Set epoch m).cache.Len : Int) = c0.cache.size) ∧
    (∀ ops2, ((runOps ops2 (c0, pkg1)).1.cache.Len : Int) ≤ c0.cache.size) := by
  obtain ⟨hwf0, hi0, he0, -⟩ := NewEpochSpansCache_ok hnew
  have hbound : ∀ ops2, ((runOps ops2 (c0, pkg1)).1.cache.Len : Int) ≤ c0.cache.size := by
    intro ops2
    rw [(runOps_cache ops2 (c0, pkg1)).1]
    obtain ⟨hwf, hs⟩ := lruRun_WF ops2 hwf0
    have := hwf.bounded
    rw [hs] at this
    exact this
  simp only [EpochSpansCache.Set, EpochSpansCache.Has]
  rw [(runOps_cache ops (c0, pkg1)).1]
  obtain ⟨hwf1, hs1⟩ := lruRun_WF ops hwf0
  have hempty : c0.cache.epochs.toFinset = ∅ := by simp [LruCache.epochs, hi0]
  obtain ⟨hev, hep⟩ := lruRun_fill ops c0.cache hwf0
    (by rw [hempty, Finset.empty_union, hdistinct])
  rw [hempty, Finset.empty_union] at hep
  have hlen : ((lruRun ops c0.cache).items.length : Int) = c0.cache.size := by
    rw [← hwf1.card_epochs, hep]
    exact hdistinct
  have hout : epoch ∉ (lruRun ops c0.cache).epochs := by
    intro hin
    have : epoch ∈ (lruRun ops c0.cache).epochs.toFinset := List.mem_toFinset.2 hin
    rw [hep] at this
    exact hfresh (List.mem_toFinset.1 this)
  obtain ⟨old, hmem, hmin, hevict, hgone, hhas, hsame⟩ :=
    hwf1.Add_full epoch m hout (by rw [hlen, hs1])
  refine ⟨by rw [hev, he0], hlen, ⟨old, hmem, hmin, ?_, hgone, hhas, ?_⟩, hbound⟩
  · rw [hevict, hev, he0]
    rfl
  · simp only [LruCache.Len]
    rw [hsame]
    exact hlen

/-- C14 on a cache of capacity 2: after `Set 1`, `Set 2` and a `Get 1`, the
`Set` of epoch 3 evicts epoch 2, the least recently used. -/
theorem lru_order_witness :
    (runOps [.set 1 (demoSpans 1), .set 2 (demoSpans 2), .get 1]
      (demoCache, demoPkg)).1.cache.evicted = [] ∧
    ((runOps [.set 1 (demoSpans 1), .set 2 (demoSpans 2), .get 1]
      (demoCache, demoPkg)).1.Set 3 (demoSpans 3)).cache.evicted =
      [(Key.ofEpoch 2, some (demoSpans 2))] :=
  ⟨(lru_order 2 Pkg.init demoPkg demoCache rfl
      [.set 1 (demoSpans 1), .set 2 (demoSpans 2), .get 1] 3 (demoSpans 3)
      (by decide) (by decide)).1, by decide⟩

theorem lastSet_append_set (k e : Nat) (m : EpochSpans) (ops : List CacheOp) :
    lastSet k (ops ++ [.set e m]) = if e = k then some m else lastSet k ops := by
  induction ops with
  | nil => simp [lastSet]
  | cons op ops ih =>
    cases op with
    | set e2 m2 =>
      have hstep : ∀ l, lastSet k (CacheOp.set e2 m2 :: l) =
          (match lastSet k l with
            | some m3 => some m3
            | none => if e2 = k then some m2 else none) := fun _ => rfl
      rw [List.cons_append, hstep, hstep, ih]
      by_cases hek : e = k
      · simp [hek]
      · simp [hek]
    | get e2 => simpa [lastSet] using ih

theorem lastSet_append_get (k e : Nat) (ops : List CacheOp) :
    lastSet k (ops ++ [.get e]) = lastSet k ops := by
  induction ops with
  | nil => simp [lastSet]
  | cons op ops ih =>
    cases op with
    | set e2 m2 =>
      have hstep : ∀ l, lastSet k (CacheOp.set e2 m2 :: l) =
          (match lastSet k l with
            | some m3 => some m3
            | none => if e2 = k then some m2 else none) := fun _ => rfl
      rw [List.cons_append, hstep, hstep, ih]
    | get e2 => simpa [lastSet] using ih

/-- One more call keeps every entry holding the map last stored under its
epoch. -/
theorem lruStep_tracks {c : LruCache} (h : c.WF) (ops : List CacheOp) (op : CacheOp)
    (htr : ∀ e, e ∈ c.items → e.value = lastSet e.key.val ops) :
    ∀ e, e ∈ (lruStep op c).items → e.value = lastSet e.key.val (ops ++ [op]) := by
  have hother : ∀ (epoch : Nat) (e : Entry), e ∈ c.items → e.key ≠ Key.ofEpoch epoch →
      epoch ≠ e.key.val := by
    intro epoch e he hne hv
    exact hne ((Entry.key_eq_iff (h.typed e he) epoch).2 hv.symm)
  cases op with
  | set epoch m =>
    have hnew : ∀ e, e ∈ ({ key := Key.ofEpoch epoch, value := some m, stamp := c.clock } ::
        c.items.filter (fun e => decide (e.key ≠ Key.ofEpoch epoch))) →
        e.value = lastSet e.key.val (ops ++ [.set epoch m]) := by
      intro e he
      rw [lastSet_append_set]
      simp only [List.mem_cons, List.mem_filter] at he
      rcases he with he | ⟨he, hk⟩
      · subst he
        simp [Key.ofEpoch]
      · have hk2 : e.key ≠ Key.ofEpoch epoch := by simpa using hk
        rw [if_neg (hother epoch e he hk2)]
        exact htr e he
    have hpush : ∀ e, epoch ∉ c.epochs →
        e ∈ ({ key := Key.ofEpoch epoch, value := some m, stamp := c.clock } :: c.items) →
        e.value = lastSet e.key.val (ops ++ [.set epoch m]) := by
      intro e hout he
      rw [lastSet_append_set]
      simp only [List.mem_cons] at he
      rcases he with he | he
      · subst he
        simp [Key.ofEpoch]
      · have hne : epoch ≠ e.key.val := by
          intro hv
          apply hout
          simp only [LruCache.epochs, List.mem_map]
          exact ⟨e, he, hv.symm⟩
        rw [if_neg hne]
        exact htr e he
    simp only [lruStep]
    rcases h.Add_cases epoch m with ⟨-, heq⟩ | ⟨hout, -, heq⟩ | ⟨hout, -, old, -, heq⟩
    · rw [heq]
      exact hnew
    · rw [heq]
      exact fun e he => hpush e hout he
    · rw [heq]
      intro e he
      exact hpush e hout ((List.dropLast_sublist _).subset he)
  | get epoch =>
    simp only [lruStep]
    rcases h.Get_cases epoch with ⟨-, e0, he0, hkey, heq⟩ | ⟨-, heq⟩
    · rw [heq]
      intro e he
      rw [lastSet_append_get]
      simp only [LruCache.moveToFront, List.mem_cons, List.mem_filter] at he
      rcases he with he | ⟨he, -⟩
      · subst he
        exact htr e0 he0
      · exact htr e he
    · rw [heq]
      intro e he
      rw [lastSet_append_get]
      exact htr e he

/-- After any sequence of calls on an empty well-formed cache every entry
holds the map last stored under its epoch. -/
theorem lruRun_tracks {c : LruCache} (h : c.WF) (hempty : c.items = [])
    (ops : List CacheOp) :
    ∀ e, e ∈ (lruRun ops c).items → e.value = lastSet e.key.val ops := by
  induction ops using List.reverseRecOn with
  | nil =>
    intro e he
    simp [lruRun, hempty] at he
  | append_singleton ops op ih =>
    rw [lruRun_append]
    exact lruStep_tracks (lruRun_WF ops h).1 ops op ih

/-- C15, `Get` contract: on a cache built by `NewEpochSpansCache` and used
through `Set` and `Get`, a `Get` of an epoch that is present returns the map
last stored under it by `Set`, with `true`, and counts a hit; a `Get` of an
epoch that is absent returns an empty non-nil map with `false`, counts a miss
and leaves the cache as it was, the epoch still absent.  `Get` always
returns. -/
theorem get_contract (size : Int) (pkg0 pkg1 : Pkg) (c0 : EpochSpansCache)
    (hnew : NewEpochSpansCache size pkg0 = (.ok c0, pkg1))
    (ops : List CacheOp) (epoch : Nat) :
    ((runOps ops (c0, pkg1)).1.Has epoch = true →
      ∃ m, lastSet epoch ops = some m ∧
        ((runOps ops (c0, pkg1)).1.Get epoch (runOps ops (c0, pkg1)).2).1 = (m, true) ∧
        ((runOps ops (c0, pkg1)).1.Get epoch (runOps ops (c0, pkg1)).2).2.2.epochSpansCacheHit =
          (runOps ops (c0, pkg1)).2.epochSpansCacheHit + 1) ∧
    ((runOps ops (c0, pkg1)).1.Has epoch = false →
      ((runOps ops (c0, pkg1)).1.Get epoch (runOps ops (c0, pkg1)).2).1 = (.made [], false) ∧
      ((runOps ops (c0, pkg1)).1.Get epoch (runOps ops (c0, pkg1)).2).2.1 =
        (runOps ops (c0, pkg1)).1 ∧
      ((runOps ops (c0, pkg1)).1.Get epoch (runOps ops (c0, pkg1)).2).2.1.Has epoch = false ∧
      ((runOps ops (c0, pkg1)).1.Get epoch (runOps ops (c0, pkg1)).2).2.2.epochSpansCacheMiss =
        (runOps ops (c0, pkg1)).2.epochSpansCacheMiss + 1) := by
  obtain ⟨hwf0, hi0, -, -⟩ := NewEpochSpansCache_ok hnew
  have hcache := (runOps_cache ops (c0, pkg1)).1
  have hwf : (runOps ops (c0, pkg1)).1.cache.WF := by
    rw [hcache]
    exact (lruRun_WF ops hwf0).1
  have htr : ∀ e, e ∈ (runOps ops (c0, pkg1)).1.cache.items →
      e.value = lastSet e.key.val ops := by
    rw [hcache]
    exact lruRun_tracks hwf0 hi0 ops
  generalize runOps ops (c0, pkg1) = st at hwf htr
  obtain ⟨c, pkg⟩ := st
  simp only [EpochSpansCache.Has, EpochSpansCache.Get] at *
  rcases hwf.Get_cases epoch with ⟨hin, e, he, hkey, heq⟩ | ⟨hout, heq⟩
  · have hc : c.cache.Contains (Key.ofEpoch epoch) = true := (hwf.contains_iff epoch).2 hin
    refine ⟨fun _ => ?_, fun h => by rw [hc] at h; exact absurd h (by simp)⟩
    have hval := htr e he
    have hv : e.key.val = epoch := by rw [hkey]; rfl
    rw [hv] at hval
    cases hm : e.value with
    | none => exact absurd hm (hwf.values e he)
    | some m =>
      rw [heq]
      refine ⟨m, by rw [← hval, hm], ?_, ?_⟩
      · simp only [hm]
      · simp only [hm]
  · have hc : c.cache.Contains (Key.ofEpoch epoch) = false := by
      cases hcc : c.cache.Contains (Key.ofEpoch epoch) with
      | false => rfl
      | true => exact absurd ((hwf.contains_iff epoch).1 hcc) hout
    refine ⟨fun h => by rw [hc] at h; exact absurd h (by simp), fun _ => ?_⟩
    rw [heq]
    exact ⟨rfl, rfl, hc, rfl⟩

/-- C15 on a cache of capacity 2: after `Set 1`, `Set 2`, `Set 1` again and
`Set 3`, a `Get` of epoch 1 returns the map stored last. -/
theorem get_contract_witness :
    ∃ m, lastSet 1 demoOps = some m ∧
      ((runOps demoOps (demoCache, demoPkg)).1.Get 1
        (runOps demoOps (demoCache, demoPkg)).2).1 = (m, true) ∧
      ((runOps demoOps (demoCache, demoPkg)).1.Get 1
        (runOps demoOps (demoCache, demoPkg)).2).2.2.epochSpansCacheHit =
        (runOps demoOps (demoCache, demoPkg)).2.epochSpansCacheHit + 1 :=
  (get_contract 2 Pkg.init demoPkg demoCache rfl demoOps 1).1 (by decide)

/-! ## `PruneOldest` and the package-level capacity -/

/-- C13 on the code, for a cache of capacity 2 built on the package as
initialised.  With one entry, below capacity, `PruneOldest` returns 0 and
leaves the cache as it is.  With two entries, at capacity, it evicts exactly
the least recently used entry, epoch 1, and invokes the eviction callback on
it, but it does not return the key: the type assertion to `uint64` on a key
stored as `basetypes.Epoch` panics. -/
theorem prune_oldest_boundary :
    NewEpochSpansCache 2 Pkg.init = (.ok demoCache, demoPkg) ∧
    (demoCache.Set 1 (demoSpans 1)).PruneOldest demoPkg =
      (.returned 0, demoCache.Set 1 (demoSpans 1)) ∧
    (((demoCache.Set 1 (demoSpans 1)).Set 2 (demoSpans 2)).PruneOldest demoPkg).1 = .panic ∧
    (((demoCache.Set 1 (demoSpans 1)).Set 2 (demoSpans 2)).PruneOldest demoPkg).2.cache.evicted =
      [(Key.ofEpoch 1, some (demoSpans 1))] ∧
    (((demoCache.Set 1 (demoSpans 1)).Set 2 (demoSpans 2)).PruneOldest demoPkg).2.cache.epochs =
      [2] :=
  ⟨rfl, by decide, by decide, by decide, by decide⟩

/-- C16 on the code: `NewEpochSpansCache` with a negative size returns an error
and no cache, but it has stored the size in the package-level
`epochSpansCacheSize` before the LRU constructor rejected it, so that a
following `NewEpochSpansCache(0, cb)` fails too, whatever the package-level
capacity was before. -/
theorem failed_construction_poisons_default (size : Int) (pkg : Pkg) (hneg : size < 0) :
    (NewEpochSpansCache size pkg).1 = .error .mustProvidePositiveSize ∧
    (NewEpochSpansCache size pkg).2.epochSpansCacheSize = size ∧
    (NewEpochSpansCache 0 (NewEpochSpansCache size pkg).2).1 =
      .error .mustProvidePositiveSize := by
  have hne : size ≠ 0 := by omega
  have hle : size ≤ 0 := by omega
  simp [NewEpochSpansCache, NewWithEvict, hne, hle]

/-- C16 on the code, from the package as initialised: after a failed
`NewEpochSpansCache(-1, cb)` the call `NewEpochSpansCache(0, cb)` returns an
error, whereas without the failed call it returns a cache of the default
capacity 256. -/
theorem failed_construction_poisons_default_witness :
    ((NewEpochSpansCache (-1) Pkg.init).1 = .error .mustProvidePositiveSize ∧
      (NewEpochSpansCache (-1) Pkg.init).2.epochSpansCacheSize = -1 ∧
      (NewEpochSpansCache 0 (NewEpochSpansCache (-1) Pkg.init).2).1 =
        .error .mustProvidePositiveSize) ∧
    (NewEpochSpansCache 0 Pkg.init).1 =
      .ok { cache := { size := 256, items := [], evicted := [], clock := 0 } } :=
  ⟨failed_construction_poisons_default (-1) Pkg.init (by decide), rfl⟩

/-- C18 on the code: on a cache built by `NewEpochSpansCache` and filled through
`Set` (with any `Get` calls), `PruneOldest` panics whenever the occupancy
equals the package-level capacity, because every key was stored as a
`basetypes.Epoch` and is asserted to be a `uint64`; otherwise it returns 0. -/
theorem prune_oldest_type_assertion (size : Int) (pkg0 pkg1 : Pkg) (c0 : EpochSpansCache)
    (hnew : NewEpochSpansCache size pkg0 = (.ok c0, pkg1))
    (ops : List CacheOp) (pkg : Pkg) :
    ((runOps ops (c0, pkg1)).1.PruneOldest pkg).1 =
      if ((runOps ops (c0, pkg1)).1.cache.Len : Int) = pkg.epochSpansCacheSize then .panic
      else .returned 0 := by
  obtain ⟨hwf0, -, -, -⟩ := NewEpochSpansCache_ok hnew
  have hwf : (runOps ops (c0, pkg1)).1.cache.WF := by
    rw [(runOps_cache ops (c0, pkg1)).1]
    exact (lruRun_WF ops hwf0).1
  generalize (runOps ops (c0, pkg1)).1 = c at hwf
  unfold EpochSpansCache.PruneOldest
  by_cases hlen : (c.cache.Len : Int) = pkg.epochSpansCacheSize
  · rw [if_pos hlen, if_pos hlen]
    unfold LruCache.RemoveOldest LruCache.removeOldest
    cases hl : c.cache.items.getLast? with
    | none => rfl
    | some e =>
      have hdyn := hwf.typed e (List.mem_of_getLast?_eq_some hl)
      simp only []
      rcases hk : e.key with ⟨dyn, val⟩
      rw [hk] at hdyn
      simp only at hdyn
      subst hdyn
      rfl
  · rw [if_neg hlen, if_neg hlen]

/-- C18 on the code, for the cache of capacity 2 holding epochs 1 and 2:
`PruneOldest` panics. -/
theorem prune_oldest_type_assertion_witness :
    ((runOps [.set 1 (demoSpans 1), .set 2 (demoSpans 2)] (demoCache, demoPkg)).1.PruneOldest
      demoPkg).1 = .panic :=
  (prune_oldest_type_assertion 2 Pkg.init demoPkg demoCache rfl
    [.set 1 (demoSpans 1), .set 2 (demoSpans 2)] demoPkg).trans (by decide)

/-- C19 on the code: the threshold of `PruneOldest` is the package-level
capacity, which the latest `NewEpochSpansCache` call with a non-zero size has
set.  A cache of capacity 2 holding two entries is at its own capacity; once a
second cache is built with size 3, `PruneOldest` on the first returns 0 and
evicts nothing.  And once a cache is built with size 1, `PruneOldest` fires on
the first cache while it holds one entry only, below its capacity. -/
theorem prune_oldest_threshold_is_global :
    NewEpochSpansCache 2 Pkg.init = (.ok demoCache, demoPkg) ∧
    (NewEpochSpansCache 3 demoPkg).2.epochSpansCacheSize = 3 ∧
    (((demoCache.Set 1 (demoSpans 1)).Set 2 (demoSpans 2)).cache.Len : Int) =
      demoCache.cache.size ∧
    ((demoCache.Set 1 (demoSpans 1)).Set 2 (demoSpans 2)).PruneOldest
        (NewEpochSpansCache 3 demoPkg).2 =
      (.returned 0, (demoCache.Set 1 (demoSpans 1)).Set 2 (demoSpans 2)) ∧
    ((demoCache.Set 1 (demoSpans 1)).cache.Len : Int) < demoCache.cache.size ∧
    ((demoCache.Set 1 (demoSpans 1)).PruneOldest
        (NewEpochSpansCache 1 demoPkg).2).2.cache.items = [] ∧
    (∀ (c : EpochSpansCache) (pkg : Pkg),
      (c.cache.Len : Int) ≠ pkg.epochSpansCacheSize → c.PruneOldest pkg = (.returned 0, c)) :=
  ⟨rfl, rfl, by decide, by decide, by decide, by decide,
    fun c pkg h => by unfold EpochSpansCache.PruneOldest; rw [if_neg h]⟩

end Prysm
